import Mathlib

/-
Shallow embedding of the market-data repository's core (oNddleo/market-data).

Source files embedded here:
  * src/backend-sse/src/order_book.rs   (Order, OrderBook and its operations)
  * src/backend/src/stream_manager.rs   (StreamManager: subscribe / unsubscribe)
  * src/backend-sse/src/stream_manager.rs (SSEStreamManager: subscribe_to_streams /
    remove_subscription)

Modelling conventions:
  * `f64` prices become `ℚ`.  The repository only ever compares prices (BTreeMap
    keys) and applies field arithmetic to them (spread / mid); both are exact on
    the rounded two-decimal values the code produces, so `ℚ` is value-faithful.
  * `u64` quantities and sequence numbers become `Nat`.
  * `DateTime<Utc>` timestamps become `Int` (milliseconds); the impure
    `Utc::now()` is threaded through as an explicit `now : Int` argument.
  * `HashMap` becomes an association list (`findEntry` / `insertEntry` /
    `eraseEntry` mirror get / insert / remove); `BTreeMap<OrderedFloat, Vec<_>>`
    becomes a price-sorted association list (`Ladder`) whose operations mirror
    `entry().or_insert_with(Vec::new).push(..)` and
    `get_mut` + `retain` + remove-if-empty.
  * `thread_rng()` draws are threaded as explicit function arguments; theorems
    about randomized code quantify over those draws, constrained exactly by the
    ranges the code samples from.
-/

/-- `Side` from src/backend-sse/src/message.rs. -/
inductive Side where
  | Bid
  | Ask
deriving DecidableEq, Repr

/-- `Order` from src/backend-sse/src/order_book.rs. -/
structure Order where
  id : String
  price : ℚ
  quantity : Nat
  side : Side
  timestamp : Int
  original_quantity : Nat
deriving DecidableEq, Repr

/-- `Order::new`: timestamp is the creation instant, original quantity is the
initial quantity. -/
def Order.new (id : String) (price : ℚ) (quantity : Nat) (side : Side)
    (now : Int) : Order :=
  { id := id, price := price, quantity := quantity, side := side,
    timestamp := now, original_quantity := quantity }

/-- `Order::update_quantity`: sets the quantity and resets the timestamp. -/
def Order.update_quantity (o : Order) (new_quantity : Nat) (now : Int) : Order :=
  { o with quantity := new_quantity, timestamp := now }

/-- `Order::age_ms`: `(now - timestamp).num_milliseconds().max(0) as u64`. -/
def Order.age_ms (o : Order) (now : Int) : Nat :=
  (now - o.timestamp).toNat

/-- `HashMap::get` on an association-list model. -/
def findEntry {κ ν : Type} [DecidableEq κ] : List (κ × ν) → κ → Option ν
  | [], _ => none
  | kv :: rest, k => if kv.1 = k then some kv.2 else findEntry rest k

/-- `HashMap::insert` on an association-list model: replaces the binding in
place when the key is present, appends otherwise. -/
def insertEntry {κ ν : Type} [DecidableEq κ] : List (κ × ν) → κ → ν → List (κ × ν)
  | [], k, v => [(k, v)]
  | kv :: rest, k, v => if kv.1 = k then (k, v) :: rest else kv :: insertEntry rest k v

/-- `HashMap::remove` on an association-list model: drops the binding. -/
def eraseEntry {κ ν : Type} [DecidableEq κ] : List (κ × ν) → κ → List (κ × ν)
  | [], _ => []
  | kv :: rest, k => if kv.1 = k then rest else kv :: eraseEntry rest k

/-- One side's `BTreeMap<OrderedFloat, Vec<String>>`: a price-ascending
association list from price to the FIFO list of order ids resting there. -/
abbrev Ladder := List (ℚ × List String)

/-- `entry(price).or_insert_with(Vec::new).push(order_id)`: append the id to
the slot at `p`, creating the slot (keeping keys sorted) when absent. -/
def Ladder.push : Ladder → ℚ → String → Ladder
  | [], p, id => [(p, [id])]
  | (q, ids) :: rest, p, id =>
    if p < q then (p, [id]) :: (q, ids) :: rest
    else if p = q then (q, ids ++ [id]) :: rest
    else (q, ids) :: Ladder.push rest p id

/-- `get_mut(&price)` + `retain(|x| x != order_id)` + remove-the-key-if-empty,
from `OrderBook::remove_order`. -/
def Ladder.removeId : Ladder → ℚ → String → Ladder
  | [], _, _ => []
  | (q, ids) :: rest, p, id =>
    if p = q then
      if (ids.filter (fun x => x ≠ id)).isEmpty then rest
      else (q, ids.filter (fun x => x ≠ id)) :: rest
    else (q, ids) :: Ladder.removeId rest p id

/-- All order ids resting anywhere in a ladder, in iteration order. -/
def ladderIds (l : Ladder) : List String :=
  (l.map Prod.snd).flatten

/-- `OrderBook` from src/backend-sse/src/order_book.rs. -/
structure OrderBook where
  symbol : String
  orders : List (String × Order)
  bids_by_price : Ladder
  asks_by_price : Ladder
  sequence : Nat
deriving DecidableEq, Repr

/-- `OrderBook::new`. -/
def OrderBook.new (symbol : String) : OrderBook :=
  { symbol := symbol, orders := [], bids_by_price := [], asks_by_price := [],
    sequence := 0 }

/-- `OrderBook::remove_order`: drop the order from the index and from its
price-ladder slot (pruning the slot when it empties), incrementing the
sequence counter; returns whether the id existed. -/
def OrderBook.remove_order (b : OrderBook) (order_id : String) : OrderBook × Bool :=
  match findEntry b.orders order_id with
  | some order =>
    let b1 := { b with orders := eraseEntry b.orders order_id }
    let b2 :=
      match order.side with
      | Side.Bid => { b1 with bids_by_price := b1.bids_by_price.removeId order.price order_id }
      | Side.Ask => { b1 with asks_by_price := b1.asks_by_price.removeId order.price order_id }
    ({ b2 with sequence := b2.sequence + 1 }, true)
  | none => (b, false)

/-- `OrderBook::add_order`: upsert — an existing order with the same id is
first fully removed (which itself increments the sequence counter), then the
order is inserted into the index and appended to its side's ladder slot;
increments the sequence counter and always returns `true`. -/
def OrderBook.add_order (b : OrderBook) (order : Order) : OrderBook × Bool :=
  let b0 := if (findEntry b.orders order.id).isSome then (b.remove_order order.id).1 else b
  let b1 := { b0 with orders := insertEntry b0.orders order.id order }
  let b2 :=
    match order.side with
    | Side.Bid => { b1 with bids_by_price := b1.bids_by_price.push order.price order.id }
    | Side.Ask => { b1 with asks_by_price := b1.asks_by_price.push order.price order.id }
  ({ b2 with sequence := b2.sequence + 1 }, true)

/-- `OrderBook::update_order`: quantity 0 delegates to `remove_order`;
otherwise mutates the order's quantity and timestamp and increments the
sequence counter, returning `false` when the id is unknown. -/
def OrderBook.update_order (b : OrderBook) (order_id : String) (new_quantity : Nat)
    (now : Int) : OrderBook × Bool :=
  if new_quantity = 0 then b.remove_order order_id
  else
    match findEntry b.orders order_id with
    | some order =>
      ({ b with
          orders := insertEntry b.orders order_id (order.update_quantity new_quantity now),
          sequence := b.sequence + 1 }, true)
    | none => (b, false)

/-- `OrderBook::get_sequence`. -/
def OrderBook.get_sequence (b : OrderBook) : Nat := b.sequence

/-- `MBOLevel` from src/backend-sse/src/message.rs. -/
structure MBOLevel where
  order_id : String
  price : ℚ
  quantity : Nat
  side : Side
  timestamp : Int
  age_ms : Nat
deriving DecidableEq, Repr

/-- `MBPLevel` from src/backend-sse/src/message.rs (`total_quantity` is the
running cumulative quantity across rendered levels). -/
structure MBPLevel where
  price : ℚ
  quantity : Nat
  order_count : Nat
  side : Side
  total_quantity : Nat
  avg_age_ms : Nat
deriving DecidableEq, Repr

/-- The price-priority iteration of `get_mbo_side` / `get_mbp_side`: bids from
highest to lowest (`iter().rev()`), asks from lowest to highest. -/
def OrderBook.sidePrices (b : OrderBook) : Side → Ladder
  | Side.Bid => b.bids_by_price.reverse
  | Side.Ask => b.asks_by_price

/-- The `MBOLevel` row built from one resting order inside `get_mbo_side`. -/
def mkMBOLevel (o : Order) (now : Int) : MBOLevel :=
  { order_id := o.id, price := o.price, quantity := o.quantity,
    side := o.side, timestamp := o.timestamp, age_ms := o.age_ms now }

/-- The rows one ladder slot contributes to `get_mbo_side`: each resting id
that resolves in the index, in slot (arrival) order. -/
def OrderBook.mboEntries (b : OrderBook) (now : Int) (ids : List String) :
    List MBOLevel :=
  ids.filterMap (fun order_id => (findEntry b.orders order_id).map
    (fun o => mkMBOLevel o now))

/-- `OrderBook::get_mbo_side`: walk the first `max_levels` price levels in
priority order, emit each resting order that resolves in the index, then
truncate the flat list to `max_levels * 3` orders. -/
def OrderBook.get_mbo_side (b : OrderBook) (side : Side) (max_levels : Nat)
    (now : Int) : List MBOLevel :=
  ((((b.sidePrices side).take max_levels).map
    (fun pe => b.mboEntries now pe.2)).flatten).take (max_levels * 3)

/-- `OrderBook::get_mbo_data`. -/
def OrderBook.get_mbo_data (b : OrderBook) (max_levels : Nat) (now : Int) :
    List MBOLevel × List MBOLevel :=
  (b.get_mbo_side Side.Bid max_levels now, b.get_mbo_side Side.Ask max_levels now)

/-- The loop body of `get_mbp_side`, threading `cumulative_quantity`. -/
def mbpLoop (b : OrderBook) (side : Side) :
    List (ℚ × List String) → Nat → List MBPLevel
  | [], _ => []
  | (price_key, order_ids) :: rest, cumulative =>
    let orders := order_ids.filterMap (findEntry b.orders)
    if orders.isEmpty then mbpLoop b side rest cumulative
    else
      let quantity := (orders.map Order.quantity).sum
      let cumulative2 := cumulative + quantity
      { price := price_key, quantity := quantity, order_count := orders.length,
        side := side, total_quantity := cumulative2,
        avg_age_ms := (orders.map (fun o => o.age_ms 0)).sum / orders.length }
        :: mbpLoop b side rest cumulative2

/-- `OrderBook::get_mbp_side`: aggregate the first `max_levels` price levels in
priority order into per-price rows carrying a running cumulative quantity.
(The average age is computed at the model's reference instant `now = 0`; its
value plays no role in the claims below.) -/
def OrderBook.get_mbp_side (b : OrderBook) (side : Side) (max_levels : Nat) :
    List MBPLevel :=
  mbpLoop b side ((b.sidePrices side).take max_levels) 0

/-- `OrderBook::get_mbp_data`. -/
def OrderBook.get_mbp_data (b : OrderBook) (max_levels : Nat) :
    List MBPLevel × List MBPLevel :=
  (b.get_mbp_side Side.Bid max_levels, b.get_mbp_side Side.Ask max_levels)

/-- `OrderBook::get_best_bid_ask`: highest bid price key and lowest ask price
key (`keys().next_back()` / `keys().next()` on the sorted maps). -/
def OrderBook.get_best_bid_ask (b : OrderBook) : Option ℚ × Option ℚ :=
  ((b.bids_by_price.map Prod.fst).getLast?, (b.asks_by_price.map Prod.fst).head?)

/-- `OrderBook::get_spread_info`: `(spread, mid, bps)`, all `none` unless both
sides are non-empty. -/
def OrderBook.get_spread_info (b : OrderBook) : Option ℚ × Option ℚ × Option ℚ :=
  match b.get_best_bid_ask with
  | (some bid, some ask) =>
    let spread := ask - bid
    let mid_price := (bid + ask) / 2
    (some spread, some mid_price, some (spread / mid_price * 10000))
  | _ => (none, none, none)

/-- The `thread_rng()` draws `OrderBook::initialize_with_sample_data` makes:
for each loop index, a quantity (`gen_range(1000..=10000)`) and a backdating
offset in milliseconds (`gen_range(0..60000)`) per side. -/
structure SampleDraws where
  bidQty : Nat → Nat
  askQty : Nat → Nat
  bidBack : Nat → Int
  askBack : Nat → Int

/-- Bid price of sample order `i`: `100.0 - 0.05 - i * 0.01`, rounded to two
decimals by `(price * 100.0).round() / 100.0`. -/
def sampleBidPrice (i : Nat) : ℚ := ((9995 : ℚ) - i) / 100

/-- Ask price of sample order `i`: `100.0 + i * 0.01`, rounded to two
decimals by `(price * 100.0).round() / 100.0`. -/
def sampleAskPrice (i : Nat) : ℚ := ((10000 : ℚ) + i) / 100

/-- The `i`-th synthetic bid of `initialize_with_sample_data`. -/
def sampleBidOrder (d : SampleDraws) (now : Int) (i : Nat) : Order :=
  { id := "bid_" ++ Nat.repr i, price := sampleBidPrice i, quantity := d.bidQty i,
    side := Side.Bid, timestamp := now - d.bidBack i,
    original_quantity := d.bidQty i }

/-- The `i`-th synthetic ask of `initialize_with_sample_data`. -/
def sampleAskOrder (d : SampleDraws) (now : Int) (i : Nat) : Order :=
  { id := "ask_" ++ Nat.repr i, price := sampleAskPrice i, quantity := d.askQty i,
    side := Side.Ask, timestamp := now - d.askBack i,
    original_quantity := d.askQty i }

/-- `OrderBook::initialize_with_sample_data`: 30 synthetic bids then 30
synthetic asks, added through `add_order` around the reference price 100.0. -/
def OrderBook.initialize_with_sample_data (b : OrderBook) (d : SampleDraws)
    (now : Int) : OrderBook :=
  let b1 := (List.range 30).foldl (fun bk i => (bk.add_order (sampleBidOrder d now i)).1) b
  (List.range 30).foldl (fun bk i => (bk.add_order (sampleAskOrder d now i)).1) b1

/-- One mutation of an order book, as driven by `execute_activity` or a test
sequence: add, update-quantity, or cancel. -/
inductive BookOp where
  | addOrd (o : Order)
  | updateOrd (id : String) (q : Nat) (now : Int)
  | removeOrd (id : String)
deriving DecidableEq, Repr

/-- Apply one `BookOp` to a book (dropping the boolean result). -/
def OrderBook.applyOp (b : OrderBook) : BookOp → OrderBook
  | BookOp.addOrd o => (b.add_order o).1
  | BookOp.updateOrd id q now => (b.update_order id q now).1
  | BookOp.removeOrd id => (b.remove_order id).1

/-- Apply a sequence of `BookOp`s in order. -/
def OrderBook.applyOps (b : OrderBook) (ops : List BookOp) : OrderBook :=
  ops.foldl OrderBook.applyOp b

/-- `DataType` from message.rs. -/
inductive DataType where
  | MBO
  | MBP
deriving DecidableEq, Repr

/-- `MarketDataUpdate` from message.rs (the SSE variant has no
`OrderActivity` arm; that arm is never produced by the embedded code paths). -/
inductive MarketDataUpdate where
  | MBO (bids asks : List MBOLevel)
  | MBP (bids asks : List MBPLevel)
deriving DecidableEq, Repr

/-- The push-message type (`ServerMessage` in the socket backend, `SSEMessage`
in the SSE backend; the two have the same market-data shape). -/
inductive ServerMessage where
  | MarketData (stream_id symbol : String) (data : MarketDataUpdate)
      (sequence : Nat) (timestamp : Int)
  | HeartBeat (timestamp : Int)
  | ConnectionInfo (client_id : String) (server_time : Int) (symbols : List String)
deriving DecidableEq, Repr

/-- A client's unbounded mpsc sender: `send` fails exactly when the receiving
end is gone (`closed`), otherwise the message is queued in order. -/
structure Channel where
  closed : Bool
  sent : List ServerMessage
deriving DecidableEq, Repr

/-- `UnboundedSender::send`: `Err` iff the channel is closed. -/
def Channel.send (c : Channel) (msg : ServerMessage) : Channel × Bool :=
  if c.closed then (c, false) else ({ c with sent := c.sent ++ [msg] }, true)

/-- `Subscription` from src/backend/src/message.rs (`SSESubscription` in the
SSE backend has the identical fields).  Client ids (`Uuid`) become `Nat`. -/
structure Subscription where
  stream_id : String
  symbol : String
  data_type : DataType
  max_levels : Nat
  client_id : Nat
deriving DecidableEq, Repr

/-- `Subscription::new`: missing depth defaults to 20. -/
def Subscription.new (stream_id symbol : String) (data_type : DataType)
    (max_levels : Option Nat) (client_id : Nat) : Subscription :=
  { stream_id := stream_id, symbol := symbol, data_type := data_type,
    max_levels := max_levels.getD 20, client_id := client_id }

/-- `entry(k).or_insert_with(Vec::new).push(v)` on an association-list model
of a map from keys to vectors. -/
def pushEntry {κ ν : Type} [DecidableEq κ] : List (κ × List ν) → κ → ν → List (κ × List ν)
  | [], k, v => [(k, [v])]
  | e :: rest, k, v =>
    if e.1 = k then (k, e.2 ++ [v]) :: rest else e :: pushEntry rest k v

/-- The snapshot payload both subscribe paths and the simulation tick build:
MBO or MBP projection at the requested depth. -/
def snapshotData (book : OrderBook) (data_type : DataType) (max_levels : Nat)
    (now : Int) : MarketDataUpdate :=
  match data_type with
  | DataType.MBO =>
    MarketDataUpdate.MBO (book.get_mbo_side Side.Bid max_levels now)
      (book.get_mbo_side Side.Ask max_levels now)
  | DataType.MBP =>
    MarketDataUpdate.MBP (book.get_mbp_side Side.Bid max_levels)
      (book.get_mbp_side Side.Ask max_levels)

/-- `StreamManager` from src/backend/src/stream_manager.rs; the three DashMaps
become association lists (iteration order is the list order). -/
structure StreamManager where
  order_books : List (String × OrderBook)
  subscriptions : List (String × List Subscription)
  clients : List (Nat × Channel)
deriving DecidableEq, Repr

/-- `StreamManager::initialize_symbol`: a fresh seeded book for the symbol. -/
def StreamManager.initialize_symbol (m : StreamManager) (symbol : String)
    (d : SampleDraws) (now : Int) : StreamManager :=
  let book := (OrderBook.new symbol).initialize_with_sample_data d now
  { m with order_books := insertEntry m.order_books symbol book }

/-- `StreamManager::register_client`. -/
def StreamManager.register_client (m : StreamManager) (client_id : Nat)
    (sender : Channel) : StreamManager :=
  { m with clients := insertEntry m.clients client_id sender }

/-- `StreamManager::subscribe`: lazily create the symbol's book, record the
subscription, then push one initial snapshot to the client when (and only
when) the client id resolves to a channel; `Err` only when that send fails. -/
def StreamManager.subscribe (m : StreamManager) (client_id : Nat)
    (stream_id symbol : String) (data_type : DataType) (max_levels : Option Nat)
    (d : SampleDraws) (now : Int) : StreamManager × Except String Unit :=
  let m0 := if (findEntry m.order_books symbol).isSome then m
            else m.initialize_symbol symbol d now
  let sub := Subscription.new stream_id symbol data_type max_levels client_id
  let m1 := { m0 with subscriptions := pushEntry m0.subscriptions symbol sub }
  match findEntry m1.order_books symbol with
  | some book =>
    match findEntry m1.clients client_id with
    | some ch =>
      let msg := ServerMessage.MarketData stream_id symbol
        (snapshotData book data_type (max_levels.getD 20) now) book.get_sequence now
      let sent := ch.send msg
      let m2 := { m1 with clients := insertEntry m1.clients client_id sent.1 }
      if sent.2 then (m2, Except.ok ())
      else (m2, Except.error "Failed to send initial snapshot")
    | none => (m1, Except.ok ())
  | none => (m1, Except.ok ())

/-- The loop of `StreamManager::unsubscribe`: retain-filter each symbol's
subscription vector in iteration order, stopping at the first vector whose
length changed; empty vectors are NOT pruned here. -/
def unsubscribeLoop (client_id : Nat) (stream_id : String) :
    List (String × List Subscription) → List (String × List Subscription) × Bool
  | [] => ([], false)
  | (sym, subs) :: rest =>
    let subs2 := subs.filter
      (fun sub => !(sub.client_id == client_id && sub.stream_id == stream_id))
    if subs2.length ≠ subs.length then ((sym, subs2) :: rest, true)
    else
      let r := unsubscribeLoop client_id stream_id rest
      ((sym, subs2) :: r.1, r.2)

/-- `StreamManager::unsubscribe`: returns whether a matching subscription was
found and removed. -/
def StreamManager.unsubscribe (m : StreamManager) (client_id : Nat)
    (stream_id : String) : StreamManager × Bool :=
  let r := unsubscribeLoop client_id stream_id m.subscriptions
  ({ m with subscriptions := r.1 }, r.2)

/-- `SSEStreamManager` from src/backend-sse/src/stream_manager.rs. -/
structure SSEStreamManager where
  order_books : List (String × OrderBook)
  subscriptions : List (String × List Subscription)
  clients : List (Nat × Channel)
  client_streams : List (Nat × List String)
deriving DecidableEq, Repr

/-- The derived stream identifier `format!("{}_{:?}_{}", symbol, data_type,
max_levels)`. -/
def streamIdFor (symbol : String) (data_type : DataType) (max_levels : Nat) : String :=
  symbol ++ "_" ++ (match data_type with
    | DataType.MBO => "MBO"
    | DataType.MBP => "MBP") ++ "_" ++ Nat.repr max_levels

/-- One iteration of the `subscribe_to_streams` loop; the boolean is true when
the initial-snapshot send failed (which aborts the loop with `Err`). -/
def SSEStreamManager.subscribe_one (m : SSEStreamManager) (client_id : Nat)
    (sdef : String × DataType × Nat) (d : SampleDraws) (now : Int) :
    SSEStreamManager × Bool :=
  let symbol := sdef.1
  let data_type := sdef.2.1
  let max_levels := sdef.2.2
  let seeded := (OrderBook.new symbol).initialize_with_sample_data d now
  let m0 := if (findEntry m.order_books symbol).isSome then m
            else { m with order_books := insertEntry m.order_books symbol seeded }
  let stream_id := streamIdFor symbol data_type max_levels
  let sub := Subscription.new stream_id symbol data_type (some max_levels) client_id
  let m1 := { m0 with subscriptions := pushEntry m0.subscriptions symbol sub }
  let m2 := { m1 with client_streams := pushEntry m1.client_streams client_id stream_id }
  match findEntry m2.order_books symbol with
  | some book =>
    match findEntry m2.clients client_id with
    | some ch =>
      let msg := ServerMessage.MarketData stream_id symbol
        (snapshotData book data_type max_levels now) book.get_sequence now
      let sent := ch.send msg
      let m3 := { m2 with clients := insertEntry m2.clients client_id sent.1 }
      (m3, !sent.2)
    | none => (m2, false)
  | none => (m2, false)

/-- `SSEStreamManager::subscribe_to_streams`: process the stream definitions
in order, returning `Err` at the first failed initial-snapshot send. -/
def SSEStreamManager.subscribe_to_streams (m : SSEStreamManager) (client_id : Nat)
    (stream_definitions : List (String × DataType × Nat)) (d : SampleDraws)
    (now : Int) : SSEStreamManager × Except String Unit :=
  match stream_definitions with
  | [] => (m, Except.ok ())
  | sdef :: rest =>
    let r := m.subscribe_one client_id sdef d now
    if r.2 then (r.1, Except.error "Failed to send initial snapshot")
    else r.1.subscribe_to_streams client_id rest d now

/-- The loop of `SSEStreamManager::remove_subscription`: retain-filter each
symbol's vector, breaking after the first vector whose length changed. -/
def removeSubscriptionLoop (client_id : Nat) (stream_id : String) :
    List (String × List Subscription) → List (String × List Subscription)
  | [] => []
  | (sym, subs) :: rest =>
    let subs2 := subs.filter
      (fun sub => !(sub.client_id == client_id && sub.stream_id == stream_id))
    if subs2.length ≠ subs.length then (sym, subs2) :: rest
    else (sym, subs2) :: removeSubscriptionLoop client_id stream_id rest

/-- `SSEStreamManager::remove_subscription`: after the retain loop, every
symbol whose subscription vector is empty is pruned
(`subscriptions.retain(|_, v| !v.is_empty())`). -/
def SSEStreamManager.remove_subscription (m : SSEStreamManager) (client_id : Nat)
    (stream_id : String) : SSEStreamManager :=
  { m with subscriptions :=
              (removeSubscriptionLoop client_id stream_id m.subscriptions).filter
                (fun e => !e.2.isEmpty) }

/-! ### Association-list map lemmas -/

/-- The keys of an association list. -/
abbrev keysOf {κ ν : Type} (l : List (κ × ν)) : List κ := l.map Prod.fst

theorem findEntry_eq_none_iff {κ ν : Type} [DecidableEq κ] (l : List (κ × ν)) (k : κ) :
    findEntry l k = none ↔ k ∉ keysOf l := by
  induction l with
  | nil => simp [findEntry]
  | cons kv rest ih =>
    by_cases h : kv.1 = k
    · simp [findEntry, h]
    · simp only [findEntry, if_neg h, keysOf, List.map_cons, List.mem_cons]
      rw [ih]
      constructor
      · intro hk hor
        rcases hor with he | hm
        · exact h he.symm
        · exact hk hm
      · intro hk hm
        exact hk (Or.inr hm)

theorem findEntry_isSome_iff {κ ν : Type} [DecidableEq κ] (l : List (κ × ν)) (k : κ) :
    (findEntry l k).isSome ↔ k ∈ keysOf l := by
  rcases h : findEntry l k with _ | v
  · simp [(findEntry_eq_none_iff l k).1 h]
  · simp only [Option.isSome_some, true_iff]
    by_contra hk
    rw [← findEntry_eq_none_iff l k] at hk
    simp [h] at hk

theorem findEntry_mem {κ ν : Type} [DecidableEq κ] {l : List (κ × ν)} {k : κ} {v : ν}
    (h : findEntry l k = some v) : (k, v) ∈ l := by
  induction l with
  | nil => simp [findEntry] at h
  | cons kv rest ih =>
    rw [findEntry] at h
    by_cases hk : kv.1 = k
    · rw [if_pos hk] at h
      have hv : kv.2 = v := Option.some.inj h
      exact List.mem_cons.2 (Or.inl (by obtain ⟨a, b⟩ := kv; simp_all))
    · rw [if_neg hk] at h
      exact List.mem_cons_of_mem _ (ih h)

theorem mem_findEntry {κ ν : Type} [DecidableEq κ] {l : List (κ × ν)} {k : κ} {v : ν}
    (hnd : (keysOf l).Nodup) (h : (k, v) ∈ l) : findEntry l k = some v := by
  induction l with
  | nil => simp at h
  | cons kv rest ih =>
    simp only [keysOf, List.map_cons, List.nodup_cons] at hnd
    rcases List.mem_cons.1 h with h1 | h1
    · subst h1
      simp [findEntry]
    · have hne : kv.1 ≠ k := by
        intro he
        exact hnd.1 (he ▸ (List.mem_map.2 ⟨(k, v), h1, rfl⟩))
      simp only [findEntry, if_neg hne]
      exact ih hnd.2 h1

theorem findEntry_insertEntry_self {κ ν : Type} [DecidableEq κ] (l : List (κ × ν))
    (k : κ) (v : ν) : findEntry (insertEntry l k v) k = some v := by
  induction l with
  | nil => simp [insertEntry, findEntry]
  | cons kv rest ih =>
    by_cases h : kv.1 = k <;> simp [insertEntry, findEntry, h, ih]

theorem findEntry_insertEntry_ne {κ ν : Type} [DecidableEq κ] (l : List (κ × ν))
    (k k' : κ) (v : ν) (hne : k' ≠ k) :
    findEntry (insertEntry l k v) k' = findEntry l k' := by
  have hne' : ¬ (k = k') := fun he => hne he.symm
  induction l with
  | nil => simp [insertEntry, findEntry, hne']
  | cons kv rest ih =>
    by_cases h : kv.1 = k
    · simp [insertEntry, findEntry, h, hne, hne']
    · by_cases h' : kv.1 = k'
      · simp [insertEntry, findEntry, h, h', hne, hne']
      · simp [insertEntry, findEntry, h, h', hne, hne', ih]

theorem findEntry_eraseEntry_self {κ ν : Type} [DecidableEq κ] (l : List (κ × ν))
    (k : κ) (hnd : (keysOf l).Nodup) : findEntry (eraseEntry l k) k = none := by
  induction l with
  | nil => simp [eraseEntry, findEntry]
  | cons kv rest ih =>
    simp only [keysOf, List.map_cons, List.nodup_cons] at hnd
    by_cases h : kv.1 = k
    · simp only [eraseEntry, if_pos h]
      rw [findEntry_eq_none_iff]
      intro hm
      exact hnd.1 (h ▸ hm)
    · simp [eraseEntry, findEntry, h, ih hnd.2]

theorem findEntry_eraseEntry_ne {κ ν : Type} [DecidableEq κ] (l : List (κ × ν))
    (k k' : κ) (hne : k' ≠ k) :
    findEntry (eraseEntry l k) k' = findEntry l k' := by
  have hne' : ¬ (k = k') := fun he => hne he.symm
  induction l with
  | nil => simp [eraseEntry, findEntry]
  | cons kv rest ih =>
    by_cases h : kv.1 = k
    · simp [eraseEntry, findEntry, h, hne, hne']
    · by_cases h' : kv.1 = k'
      · simp [eraseEntry, findEntry, h, h', hne, hne']
      · simp [eraseEntry, findEntry, h, h', hne, hne', ih]

theorem keysOf_insertEntry_of_mem {κ ν : Type} [DecidableEq κ] (l : List (κ × ν))
    (k : κ) (v : ν) (h : k ∈ keysOf l) : keysOf (insertEntry l k v) = keysOf l := by
  induction l with
  | nil => simp at h
  | cons kv rest ih =>
    by_cases hk : kv.1 = k
    · simp [insertEntry, hk]
    · have hr : k ∈ keysOf rest := by
        simp only [keysOf, List.map_cons, List.mem_cons] at h
        rcases h with h1 | h1
        · exact absurd h1.symm hk
        · exact h1
      simp [insertEntry, hk, ih hr]

theorem keysOf_insertEntry_of_not_mem {κ ν : Type} [DecidableEq κ] (l : List (κ × ν))
    (k : κ) (v : ν) (h : k ∉ keysOf l) : keysOf (insertEntry l k v) = keysOf l ++ [k] := by
  induction l with
  | nil => simp [insertEntry]
  | cons kv rest ih =>
    simp only [keysOf, List.map_cons, List.mem_cons] at h
    push_neg at h
    simp [insertEntry, Ne.symm h.1, ih h.2]

theorem keysOf_eraseEntry_sublist {κ ν : Type} [DecidableEq κ] (l : List (κ × ν))
    (k : κ) : (keysOf (eraseEntry l k)).Sublist (keysOf l) := by
  induction l with
  | nil => simp [eraseEntry]
  | cons kv rest ih =>
    by_cases h : kv.1 = k
    · simp only [eraseEntry, if_pos h, keysOf, List.map_cons]
      exact List.sublist_cons_self _ _
    · simp only [eraseEntry, if_neg h, keysOf, List.map_cons]
      exact ih.cons₂ _

theorem nodup_keysOf_insertEntry {κ ν : Type} [DecidableEq κ] (l : List (κ × ν))
    (k : κ) (v : ν) (hnd : (keysOf l).Nodup) : (keysOf (insertEntry l k v)).Nodup := by
  by_cases h : k ∈ keysOf l
  · rw [keysOf_insertEntry_of_mem l k v h]
    exact hnd
  · rw [keysOf_insertEntry_of_not_mem l k v h]
    simp [List.nodup_append, hnd, h]

theorem nodup_keysOf_eraseEntry {κ ν : Type} [DecidableEq κ] (l : List (κ × ν))
    (k : κ) (hnd : (keysOf l).Nodup) : (keysOf (eraseEntry l k)).Nodup :=
  (keysOf_eraseEntry_sublist l k).nodup hnd

/-! ### Sequence-counter accounting (C2) -/

/-- How many times one operation increments the sequence counter when applied
to book `b`: an `add_order` whose id already rests in the book increments
twice (once inside the implicit `remove_order`, once for the insert); an
`update_order` or `remove_order` increments exactly when the id exists. -/
def opSeqCost (b : OrderBook) : BookOp → Nat
  | BookOp.addOrd o => if (findEntry b.orders o.id).isSome then 2 else 1
  | BookOp.updateOrd id _ _ => if (findEntry b.orders id).isSome then 1 else 0
  | BookOp.removeOrd id => if (findEntry b.orders id).isSome then 1 else 0

/-- Total sequence increments of a sequence of operations, threaded through
the intermediate book states. -/
def opsSeqCost (b : OrderBook) : List BookOp → Nat
  | [] => 0
  | op :: rest => opSeqCost b op + opsSeqCost (b.applyOp op) rest

/-- The mutation count exactly as claim C2 counts it: every `add_order` counts
once; `update_order`/`remove_order` count only when the id existed at the
moment of application. -/
def claimMutationCount (b : OrderBook) : List BookOp → Nat
  | [] => 0
  | op :: rest =>
    (match op with
      | BookOp.addOrd _ => 1
      | BookOp.updateOrd id _ _ => if (findEntry b.orders id).isSome then 1 else 0
      | BookOp.removeOrd id => if (findEntry b.orders id).isSome then 1 else 0) +
    claimMutationCount (b.applyOp op) rest

theorem remove_order_sequence (b : OrderBook) (id : String) :
    ((b.remove_order id).1).sequence =
      b.sequence + (if (findEntry b.orders id).isSome then 1 else 0) := by
  rw [OrderBook.remove_order]
  rcases h : findEntry b.orders id with _ | o
  · simp [h]
  · cases hs : o.side <;> simp [h, hs]

theorem add_order_sequence (b : OrderBook) (o : Order) :
    ((b.add_order o).1).sequence =
      b.sequence + (if (findEntry b.orders o.id).isSome then 2 else 1) := by
  rw [OrderBook.add_order]
  by_cases h : (findEntry b.orders o.id).isSome
  · have hr := remove_order_sequence b o.id
    rw [if_pos h] at hr
    cases hs : o.side <;> simp [h, hs, hr]
  · cases hs : o.side <;> simp [h, hs]

theorem update_order_sequence (b : OrderBook) (id : String) (q : Nat) (now : Int) :
    ((b.update_order id q now).1).sequence =
      b.sequence + (if (findEntry b.orders id).isSome then 1 else 0) := by
  rw [OrderBook.update_order]
  by_cases hq : q = 0
  · simp [hq, remove_order_sequence]
  · rcases h : findEntry b.orders id with _ | o <;> simp [hq, h]

theorem applyOp_sequence (b : OrderBook) (op : BookOp) :
    (b.applyOp op).sequence = b.sequence + opSeqCost b op := by
  cases op with
  | addOrd o => simpa [OrderBook.applyOp, opSeqCost] using add_order_sequence b o
  | updateOrd id q now => simpa [OrderBook.applyOp, opSeqCost] using update_order_sequence b id q now
  | removeOrd id => simpa [OrderBook.applyOp, opSeqCost] using remove_order_sequence b id

theorem applyOps_sequence (ops : List BookOp) (b : OrderBook) :
    (b.applyOps ops).sequence = b.sequence + opsSeqCost b ops := by
  induction ops generalizing b with
  | nil => simp [OrderBook.applyOps, opsSeqCost]
  | cons op rest ih =>
    have h1 : b.applyOps (op :: rest) = (b.applyOp op).applyOps rest := by
      simp [OrderBook.applyOps]
    rw [h1, ih, applyOp_sequence, opsSeqCost]
    omega

/-- Concrete two-operation sequence for C2: the same order id added twice. -/
def cexC2Ops : List BookOp :=
  [BookOp.addOrd (Order.new "x" 100 5 Side.Bid 0),
   BookOp.addOrd (Order.new "x" 101 7 Side.Bid 1)]

/-- C2, counterexample: on a fresh book, `[AddOrder(id="x"), AddOrder(id="x")]`
is N = 2 mutations by the claim's counting (each Add counted once), yet the
sequence counter ends at 3, because the second `add_order` first performs an
implicit `remove_order` which itself increments the counter.  The claim's
equality `sequence = N` is therefore false at this input. -/
theorem C2_counterexample_upsert_double_increment :
    ((OrderBook.new "S").applyOps cexC2Ops).sequence = 3 ∧
    claimMutationCount (OrderBook.new "S") cexC2Ops = 2 ∧
    ((OrderBook.new "S").applyOps cexC2Ops).sequence ≠
      claimMutationCount (OrderBook.new "S") cexC2Ops := by
  refine ⟨by decide, by decide, by decide⟩

/-- C2 (amended): a fresh book's sequence counter is 0, and after any sequence
of operations the counter equals the sum of per-operation increments, where an
`add_order` counts 2 when its id already existed (the implicit removal also
increments) and 1 otherwise, and `update_order`/`remove_order` count 1 exactly
when the id existed at the moment of application (an `update_order` with
quantity 0 behaves as the `remove_order` it delegates to). -/
theorem C2_amended_sequence_accounting :
    (∀ sym, (OrderBook.new sym).sequence = 0) ∧
    (∀ sym (ops : List BookOp),
      ((OrderBook.new sym).applyOps ops).sequence =
        opsSeqCost (OrderBook.new sym) ops) := by
  constructor
  · intro sym
    rfl
  · intro sym ops
    rw [applyOps_sequence]
    simp [OrderBook.new]

/-! ### Ladder lemmas -/

theorem eraseEntry_sublist {κ ν : Type} [DecidableEq κ] (l : List (κ × ν)) (k : κ) :
    (eraseEntry l k).Sublist l := by
  induction l with
  | nil => simp [eraseEntry]
  | cons kv rest ih =>
    by_cases h : kv.1 = k
    · simp only [eraseEntry, if_pos h]
      exact List.sublist_cons_self _ _
    · simp only [eraseEntry, if_neg h]
      exact ih.cons₂ _

theorem mem_insertEntry {κ ν : Type} [DecidableEq κ] {l : List (κ × ν)} {k : κ} {v : ν}
    {e : κ × ν} (h : e ∈ insertEntry l k v) : e = (k, v) ∨ e ∈ l := by
  induction l with
  | nil => simp [insertEntry] at h; left; exact h
  | cons kv rest ih =>
    by_cases hk : kv.1 = k
    · rw [insertEntry, if_pos hk] at h
      rcases List.mem_cons.1 h with h1 | h1
      · left; exact h1
      · right; exact List.mem_cons_of_mem _ h1
    · rw [insertEntry, if_neg hk] at h
      rcases List.mem_cons.1 h with h1 | h1
      · subst h1
        right
        exact List.mem_cons_self _ _
      · rcases ih h1 with h2 | h2
        · left; exact h2
        · right; exact List.mem_cons_of_mem _ h2

theorem ladderIds_nil : ladderIds [] = [] := rfl

theorem ladderIds_cons (e : ℚ × List String) (rest : Ladder) :
    ladderIds (e :: rest) = e.2 ++ ladderIds rest := by
  simp [ladderIds]

theorem mem_ladderIds {l : Ladder} {x : String} :
    x ∈ ladderIds l ↔ ∃ e ∈ l, x ∈ e.2 := by
  induction l with
  | nil => simp [ladderIds]
  | cons e rest ih =>
    rw [ladderIds_cons, List.mem_append, ih]
    constructor
    · rintro (h | ⟨e', he', hx⟩)
      · exact ⟨e, List.mem_cons_self _ _, h⟩
      · exact ⟨e', List.mem_cons_of_mem _ he', hx⟩
    · rintro ⟨e', he', hx⟩
      rcases List.mem_cons.1 he' with rfl | hm
      · exact Or.inl hx
      · exact Or.inr ⟨e', hm, hx⟩

theorem ladderIds_push_perm (l : Ladder) (p : ℚ) (id : String) :
    (ladderIds (Ladder.push l p id)).Perm (id :: ladderIds l) := by
  induction l with
  | nil => simp [Ladder.push, ladderIds]
  | cons e rest ih =>
    obtain ⟨q, ids⟩ := e
    rw [Ladder.push]
    by_cases h1 : p < q
    · rw [if_pos h1]
      rw [ladderIds_cons, ladderIds_cons]
      simp
    · by_cases h2 : p = q
      · rw [if_neg h1, if_pos h2, ladderIds_cons, ladderIds_cons]
        have : (ids ++ [id]) ++ ladderIds rest = ids ++ id :: ladderIds rest := by simp
        rw [this]
        exact List.perm_middle
      · rw [if_neg h1, if_neg h2, ladderIds_cons, ladderIds_cons]
        exact (List.Perm.append_left ids ih).trans List.perm_middle

theorem mem_slot_push {p : ℚ} {id : String} :
    ∀ {l : Ladder} {e : ℚ × List String}, e ∈ Ladder.push l p id → ∀ x ∈ e.2,
      (e.1 = p ∧ x = id) ∨ ∃ ids0, (e.1, ids0) ∈ l ∧ x ∈ ids0
  | [], e, he, x, hx => by
    simp only [Ladder.push, List.mem_singleton] at he
    subst he
    simp only [List.mem_singleton] at hx
    exact Or.inl ⟨rfl, hx⟩
  | (q, ids) :: rest, e, he, x, hx => by
    rw [Ladder.push] at he
    by_cases h1 : p < q
    · rw [if_pos h1] at he
      rcases List.mem_cons.1 he with h | h
      · subst h
        simp only [List.mem_singleton] at hx
        exact Or.inl ⟨rfl, hx⟩
      · exact Or.inr ⟨e.2, h, hx⟩
    · rw [if_neg h1] at he
      by_cases h2 : p = q
      · rw [if_pos h2] at he
        rcases List.mem_cons.1 he with h | h
        · subst h
          rcases List.mem_append.1 hx with h3 | h3
          · exact Or.inr ⟨ids, List.mem_cons_self _ _, h3⟩
          · simp only [List.mem_singleton] at h3
            exact Or.inl ⟨h2.symm, h3⟩
        · exact Or.inr ⟨e.2, List.mem_cons_of_mem _ h, hx⟩
      · rw [if_neg h2] at he
        rcases List.mem_cons.1 he with h | h
        · subst h
          exact Or.inr ⟨ids, List.mem_cons_self _ _, hx⟩
        · rcases mem_slot_push h x hx with h3 | ⟨ids0, h4, h5⟩
          · exact Or.inl h3
          · exact Or.inr ⟨ids0, List.mem_cons_of_mem _ h4, h5⟩

theorem push_mem_self (l : Ladder) (p : ℚ) (id : String) :
    ∃ ids, (p, ids) ∈ Ladder.push l p id ∧ id ∈ ids := by
  induction l with
  | nil => exact ⟨[id], by simp [Ladder.push]⟩
  | cons f rest ih =>
    obtain ⟨q, ids⟩ := f
    by_cases h1 : p < q
    · exact ⟨[id], by rw [Ladder.push, if_pos h1]; exact List.mem_cons_self _ _, by simp⟩
    · by_cases h2 : p = q
      · refine ⟨ids ++ [id], ?_, by simp⟩
        rw [Ladder.push, if_neg h1, if_pos h2]
        subst h2
        exact List.mem_cons_self _ _
      · obtain ⟨ids0, hm, hi⟩ := ih
        refine ⟨ids0, ?_, hi⟩
        rw [Ladder.push, if_neg h1, if_neg h2]
        exact List.mem_cons_of_mem _ hm

theorem push_preserves_mem {l : Ladder} {e : ℚ × List String} (he : e ∈ l)
    (p : ℚ) (id : String) {x : String} (hx : x ∈ e.2) :
    ∃ ids2, (e.1, ids2) ∈ Ladder.push l p id ∧ x ∈ ids2 := by
  induction l with
  | nil => simp at he
  | cons f rest ih =>
    obtain ⟨q, ids⟩ := f
    rw [Ladder.push]
    by_cases h1 : p < q
    · rw [if_pos h1]
      exact ⟨e.2, List.mem_cons_of_mem _ he, hx⟩
    · by_cases h2 : p = q
      · rw [if_neg h1, if_pos h2]
        rcases List.mem_cons.1 he with h | h
        · subst h
          exact ⟨ids ++ [id], List.mem_cons_self _ _, List.mem_append_left _ hx⟩
        · exact ⟨e.2, List.mem_cons_of_mem _ h, hx⟩
      · rw [if_neg h1, if_neg h2]
        rcases List.mem_cons.1 he with h | h
        · subst h
          exact ⟨ids, List.mem_cons_self _ _, hx⟩
        · obtain ⟨ids2, hm, hi⟩ := ih h
          exact ⟨ids2, List.mem_cons_of_mem _ hm, hi⟩

theorem keysOf_push_subset (l : Ladder) (p : ℚ) (id : String) :
    keysOf (Ladder.push l p id) ⊆ p :: keysOf l := by
  induction l with
  | nil => simp [Ladder.push]
  | cons f rest ih =>
    obtain ⟨q, ids⟩ := f
    rw [Ladder.push]
    by_cases h1 : p < q
    · rw [if_pos h1]
      simp [keysOf, List.cons_subset, List.Subset.refl]
    · by_cases h2 : p = q
      · rw [if_neg h1, if_pos h2]
        exact List.subset_cons_self _ _
      · rw [if_neg h1, if_neg h2]
        intro k hk
        simp only [keysOf, List.map_cons, List.mem_cons] at hk ⊢
        rcases hk with rfl | hk
        · exact Or.inr (Or.inl rfl)
        · rcases List.mem_cons.1 (ih hk) with rfl | hk2
          · exact Or.inl rfl
          · exact Or.inr (Or.inr hk2)

theorem pairwise_keysOf_push (l : Ladder) (p : ℚ) (id : String)
    (h : (keysOf l).Pairwise (· < ·)) :
    (keysOf (Ladder.push l p id)).Pairwise (· < ·) := by
  induction l with
  | nil => simp [Ladder.push]
  | cons f rest ih =>
    obtain ⟨q, ids⟩ := f
    simp only [keysOf, List.map_cons, List.pairwise_cons] at h
    rw [Ladder.push]
    by_cases h1 : p < q
    · rw [if_pos h1]
      simp only [keysOf, List.map_cons, List.pairwise_cons]
      refine ⟨?_, h.1, h.2⟩
      intro k hk
      rcases List.mem_cons.1 hk with rfl | hm
      · exact h1
      · exact h1.trans (h.1 k hm)
    · by_cases h2 : p = q
      · rw [if_neg h1, if_pos h2]
        simp only [keysOf, List.map_cons, List.pairwise_cons]
        exact ⟨h.1, h.2⟩
      · rw [if_neg h1, if_neg h2]
        simp only [keysOf, List.map_cons, List.pairwise_cons]
        have hq : q < p := lt_of_le_of_ne (not_lt.1 h1) (fun he => h2 he.symm)
        refine ⟨?_, ih h.2⟩
        intro k hk
        rcases List.mem_cons.1 (keysOf_push_subset rest p id hk) with rfl | hm
        · exact hq
        · exact h.1 k hm

theorem noEmpty_push {l : Ladder} (h : ∀ e ∈ l, e.2 ≠ []) (p : ℚ) (id : String) :
    ∀ e ∈ Ladder.push l p id, e.2 ≠ [] := by
  induction l with
  | nil =>
    intro e he
    simp only [Ladder.push, List.mem_singleton] at he
    subst he
    simp
  | cons f rest ih =>
    obtain ⟨q, ids⟩ := f
    intro e he
    rw [Ladder.push] at he
    by_cases h1 : p < q
    · rw [if_pos h1] at he
      rcases List.mem_cons.1 he with rfl | hm
      · simp
      · exact h e hm
    · by_cases h2 : p = q
      · rw [if_neg h1, if_pos h2] at he
        rcases List.mem_cons.1 he with rfl | hm
        · simp
        · exact h e (List.mem_cons_of_mem _ hm)
      · rw [if_neg h1, if_neg h2] at he
        rcases List.mem_cons.1 he with rfl | hm
        · exact h _ (List.mem_cons_self _ _)
        · exact ih (fun e' he' => h e' (List.mem_cons_of_mem _ he')) e hm

theorem ladderIds_removeId_sublist (l : Ladder) (p : ℚ) (id : String) :
    (ladderIds (Ladder.removeId l p id)).Sublist (ladderIds l) := by
  induction l with
  | nil => simp [Ladder.removeId]
  | cons f rest ih =>
    obtain ⟨q, ids⟩ := f
    rw [Ladder.removeId]
    by_cases h1 : p = q
    · rw [if_pos h1]
      by_cases h2 : (ids.filter (fun x => x ≠ id)).isEmpty
      · rw [if_pos h2, ladderIds_cons]
        exact (List.sublist_append_right _ _)
      · rw [if_neg h2, ladderIds_cons, ladderIds_cons]
        exact List.Sublist.append (List.filter_sublist _) (List.Sublist.refl _)
    · rw [if_neg h1, ladderIds_cons, ladderIds_cons]
      exact List.Sublist.append (List.Sublist.refl _) ih

theorem mem_slot_removeId {p : ℚ} {id : String} :
    ∀ {l : Ladder} {e : ℚ × List String}, e ∈ Ladder.removeId l p id →
      ∃ ids0, (e.1, ids0) ∈ l ∧ ∀ x ∈ e.2, x ∈ ids0
  | [], e, he => by simp [Ladder.removeId] at he
  | (q, ids) :: rest, e, he => by
    rw [Ladder.removeId] at he
    by_cases h1 : p = q
    · rw [if_pos h1] at he
      by_cases h2 : (ids.filter (fun x => x ≠ id)).isEmpty
      · rw [if_pos h2] at he
        exact ⟨e.2, List.mem_cons_of_mem _ he, fun x hx => hx⟩
      · rw [if_neg h2] at he
        rcases List.mem_cons.1 he with h | h
        · subst h
          refine ⟨ids, List.mem_cons_self _ _, ?_⟩
          intro x hx
          exact (List.mem_filter.1 hx).1
        · exact ⟨e.2, List.mem_cons_of_mem _ h, fun x hx => hx⟩
    · rw [if_neg h1] at he
      rcases List.mem_cons.1 he with h | h
      · subst h
        exact ⟨ids, List.mem_cons_self _ _, fun x hx => hx⟩
      · obtain ⟨ids0, hm, hsub⟩ := mem_slot_removeId h
        exact ⟨ids0, List.mem_cons_of_mem _ hm, hsub⟩

theorem keysOf_removeId_sublist (l : Ladder) (p : ℚ) (id : String) :
    (keysOf (Ladder.removeId l p id)).Sublist (keysOf l) := by
  induction l with
  | nil => simp [Ladder.removeId]
  | cons f rest ih =>
    obtain ⟨q, ids⟩ := f
    rw [Ladder.removeId]
    by_cases h1 : p = q
    · rw [if_pos h1]
      by_cases h2 : (ids.filter (fun x => x ≠ id)).isEmpty
      · rw [if_pos h2]
        simp only [keysOf, List.map_cons]
        exact List.sublist_cons_self _ _
      · rw [if_neg h2]
        simp only [keysOf, List.map_cons]
        exact (List.Sublist.refl _).cons₂ _
    · rw [if_neg h1]
      simp only [keysOf, List.map_cons]
      exact ih.cons₂ _

theorem noEmpty_removeId {l : Ladder} (h : ∀ e ∈ l, e.2 ≠ []) (p : ℚ) (id : String) :
    ∀ e ∈ Ladder.removeId l p id, e.2 ≠ [] := by
  induction l with
  | nil => simp [Ladder.removeId]
  | cons f rest ih =>
    obtain ⟨q, ids⟩ := f
    intro e he
    rw [Ladder.removeId] at he
    have htail : ∀ e' ∈ rest, e'.2 ≠ [] := fun e' he' => h e' (List.mem_cons_of_mem _ he')
    by_cases h1 : p = q
    · rw [if_pos h1] at he
      by_cases h2 : (ids.filter (fun x => x ≠ id)).isEmpty
      · rw [if_pos h2] at he
        exact htail e he
      · rw [if_neg h2] at he
        rcases List.mem_cons.1 he with rfl | hm
        · intro hc
          rw [show ((q, List.filter (fun x => decide (x ≠ id)) ids)).2 = List.filter (fun x => decide (x ≠ id)) ids from rfl] at hc
          rw [hc] at h2
          simp at h2
        · exact htail e hm
    · rw [if_neg h1] at he
      rcases List.mem_cons.1 he with rfl | hm
      · exact h _ (List.mem_cons_self _ _)
      · exact ih htail e hm

theorem removeId_not_mem {l : Ladder} {p : ℚ} {id : String}
    (hOnly : ∀ e ∈ l, id ∈ e.2 → e.1 = p)
    (hkeys : (keysOf l).Pairwise (· < ·)) :
    id ∉ ladderIds (Ladder.removeId l p id) := by
  induction l with
  | nil => simp [Ladder.removeId, ladderIds]
  | cons f rest ih =>
    obtain ⟨q, ids⟩ := f
    simp only [keysOf, List.map_cons, List.pairwise_cons] at hkeys
    have htailOnly : ∀ e ∈ rest, id ∈ e.2 → e.1 = p :=
      fun e he hx => hOnly e (List.mem_cons_of_mem _ he) hx
    rw [Ladder.removeId]
    by_cases h1 : p = q
    · -- the slot keyed q = p is filtered; no other slot can hold `id`
      have hrest : id ∉ ladderIds rest := by
        intro hm
        obtain ⟨e, he, hx⟩ := mem_ladderIds.1 hm
        have hep : e.1 = p := htailOnly e he hx
        have : q < e.1 := hkeys.1 e.1 (List.mem_map.2 ⟨e, he, rfl⟩)
        rw [hep, ← h1] at this
        exact lt_irrefl p this
      rw [if_pos h1]
      by_cases h2 : (ids.filter (fun x => x ≠ id)).isEmpty
      · rw [if_pos h2]
        exact hrest
      · rw [if_neg h2, ladderIds_cons]
        intro hm
        rcases List.mem_append.1 hm with hm | hm
        · have := (List.mem_filter.1 hm).2
          simp at this
        · exact hrest hm
    · rw [if_neg h1, ladderIds_cons]
      intro hm
      rcases List.mem_append.1 hm with hm | hm
      · exact h1 ((hOnly (q, ids) (List.mem_cons_self _ _) hm).symm)
      · exact ih htailOnly hkeys.2 hm

theorem removeId_preserves_mem {l : Ladder} {f : ℚ × List String} (hf : f ∈ l)
    {x : String} (hx : x ∈ f.2) {p : ℚ} {id : String} (hne : x ≠ id) :
    ∃ ids2, (f.1, ids2) ∈ Ladder.removeId l p id ∧ x ∈ ids2 := by
  induction l with
  | nil => simp at hf
  | cons g rest ih =>
    obtain ⟨q, ids⟩ := g
    rw [Ladder.removeId]
    by_cases h1 : p = q
    · rw [if_pos h1]
      rcases List.mem_cons.1 hf with h | h
      · subst h
        have hxf : x ∈ ids.filter (fun y => y ≠ id) :=
          List.mem_filter.2 ⟨hx, by simp [hne]⟩
        have hne2 : ¬ ((ids.filter (fun y => y ≠ id)).isEmpty = true) := by
          rw [List.isEmpty_iff]
          exact List.ne_nil_of_mem hxf
        rw [if_neg hne2]
        exact ⟨ids.filter (fun y => y ≠ id), List.mem_cons_self _ _, hxf⟩
      · by_cases h2 : (ids.filter (fun y => y ≠ id)).isEmpty
        · rw [if_pos h2]
          exact ⟨f.2, h, hx⟩
        · rw [if_neg h2]
          exact ⟨f.2, List.mem_cons_of_mem _ h, hx⟩
    · rw [if_neg h1]
      rcases List.mem_cons.1 hf with h | h
      · subst h
        exact ⟨ids, List.mem_cons_self _ _, hx⟩
      · obtain ⟨ids2, hm, hi⟩ := ih h
        exact ⟨ids2, List.mem_cons_of_mem _ hm, hi⟩

/-! ### The order-book well-formedness invariant -/

/-- The side's ladder as stored (ascending by price). -/
def OrderBook.sideLadder (b : OrderBook) : Side → Ladder
  | Side.Bid => b.bids_by_price
  | Side.Ask => b.asks_by_price

/-- Every order id resting in a ladder slot resolves in the order index to an
order of the given side whose price is the slot's price key. -/
def ladderMatchesIndex (b : OrderBook) (l : Ladder) (s : Side) : Prop :=
  ∀ e ∈ l, ∀ x ∈ e.2,
    (findEntry b.orders x).map (fun o => (o.side, o.price)) = some (s, e.1)

/-- All ids resting in either ladder of the book. -/
def allLadderIds (b : OrderBook) : List String :=
  ladderIds b.bids_by_price ++ ladderIds b.asks_by_price

/-- Well-formedness of an `OrderBook`, as `BTreeMap`/`HashMap` and the
operations maintain it: index keys are unique and each binding is keyed by its
order's id; ladder keys are strictly sorted; ladder ids resolve in the index
with matching side and price; every indexed order rests in its side's ladder
at its price; no id rests in two slots; no slot is empty. -/
structure OrderBook.WF (b : OrderBook) : Prop where
  ordersNodup : (keysOf b.orders).Nodup
  orderKey : ∀ e ∈ b.orders, Order.id e.2 = e.1
  bidsSorted : (keysOf b.bids_by_price).Pairwise (· < ·)
  asksSorted : (keysOf b.asks_by_price).Pairwise (· < ·)
  bidsToIndex : ladderMatchesIndex b b.bids_by_price Side.Bid
  asksToIndex : ladderMatchesIndex b b.asks_by_price Side.Ask
  indexToLadder : ∀ e ∈ b.orders,
    ∃ f ∈ b.sideLadder (Order.side e.2), f.1 = Order.price e.2 ∧ e.1 ∈ f.2
  idsNodup : (allLadderIds b).Nodup
  bidsNoEmpty : ∀ e ∈ b.bids_by_price, e.2 ≠ []
  asksNoEmpty : ∀ e ∈ b.asks_by_price, e.2 ≠ []

theorem WF_new (sym : String) : (OrderBook.new sym).WF := by
  refine ⟨?_, ?_, ?_, ?_, ?_, ?_, ?_, ?_, ?_, ?_⟩ <;>
    simp [OrderBook.new, ladderMatchesIndex, allLadderIds, ladderIds]

theorem remove_order_eq_none {b : OrderBook} {id : String}
    (hf : findEntry b.orders id = none) : b.remove_order id = (b, false) := by
  rw [OrderBook.remove_order, hf]

theorem remove_order_eq_bid {b : OrderBook} {id : String} {o : Order}
    (hf : findEntry b.orders id = some o) (hs : o.side = Side.Bid) :
    b.remove_order id =
      ({ b with
          orders := eraseEntry b.orders id,
          bids_by_price := b.bids_by_price.removeId o.price id,
          sequence := b.sequence + 1 }, true) := by
  simp only [OrderBook.remove_order, hf, hs]

theorem remove_order_eq_ask {b : OrderBook} {id : String} {o : Order}
    (hf : findEntry b.orders id = some o) (hs : o.side = Side.Ask) :
    b.remove_order id =
      ({ b with
          orders := eraseEntry b.orders id,
          asks_by_price := b.asks_by_price.removeId o.price id,
          sequence := b.sequence + 1 }, true) := by
  simp only [OrderBook.remove_order, hf, hs]

theorem WF_remove {b : OrderBook} (hwf : b.WF) (id : String) :
    ((b.remove_order id).1).WF := by
  rcases hf : findEntry b.orders id with _ | o
  · rw [OrderBook.remove_order, hf]
    exact hwf
  · have hmem : (id, o) ∈ b.orders := findEntry_mem hf
    have hoid : o.id = id := hwf.orderKey _ hmem
    have hbid_side : ∀ e ∈ b.bids_by_price, ∀ x ∈ e.2, x = id →
        o.side = Side.Bid ∧ o.price = e.1 := by
      intro e he x hx hxe
      have h2 := hwf.bidsToIndex e he x hx
      rw [hxe, hf] at h2
      simpa using h2
    have hask_side : ∀ e ∈ b.asks_by_price, ∀ x ∈ e.2, x = id →
        o.side = Side.Ask ∧ o.price = e.1 := by
      intro e he x hx hxe
      have h2 := hwf.asksToIndex e he x hx
      rw [hxe, hf] at h2
      simpa using h2
    have hene_of_mem : ∀ e ∈ eraseEntry b.orders id, e.1 ≠ id := by
      intro e he hee
      have hnone := findEntry_eraseEntry_self b.orders id hwf.ordersNodup
      rw [findEntry_eq_none_iff] at hnone
      exact hnone (List.mem_map.2 ⟨e, he, hee⟩)
    cases hs : o.side
    case Bid =>
      rw [remove_order_eq_bid hf hs]
      have hOnlyB : ∀ e ∈ b.bids_by_price, id ∈ e.2 → e.1 = o.price :=
        fun e he hx => (hbid_side e he id hx rfl).2.symm
      have hnoid : id ∉ ladderIds (Ladder.removeId b.bids_by_price o.price id) :=
        removeId_not_mem hOnlyB hwf.bidsSorted
      refine ⟨?_, ?_, ?_, ?_, ?_, ?_, ?_, ?_, ?_, ?_⟩
      · exact nodup_keysOf_eraseEntry _ _ hwf.ordersNodup
      · intro e he
        exact hwf.orderKey e ((eraseEntry_sublist _ _).subset he)
      · exact hwf.bidsSorted.sublist (keysOf_removeId_sublist _ _ _)
      · exact hwf.asksSorted
      · intro e he x hx
        obtain ⟨ids0, hm0, hsub⟩ := mem_slot_removeId he
        have hx0 : x ∈ ids0 := hsub x hx
        have hxid : x ≠ id := by
          intro hxe
          subst hxe
          exact hnoid (mem_ladderIds.2 ⟨e, he, hx⟩)
        rw [findEntry_eraseEntry_ne b.orders id x hxid]
        exact hwf.bidsToIndex (e.1, ids0) hm0 x hx0
      · intro e he x hx
        have hxid : x ≠ id := by
          intro hxe
          have h3 := (hask_side e he x hx hxe).1
          rw [hs] at h3
          exact Side.noConfusion h3
        rw [findEntry_eraseEntry_ne b.orders id x hxid]
        exact hwf.asksToIndex e he x hx
      · intro e he
        have heb : e ∈ b.orders := (eraseEntry_sublist _ _).subset he
        have hene : e.1 ≠ id := hene_of_mem e he
        obtain ⟨f, hfm, hfp, hfx⟩ := hwf.indexToLadder e heb
        cases hes : Order.side e.2
        case Bid =>
          rw [hes] at hfm
          simp only [OrderBook.sideLadder] at hfm ⊢
          obtain ⟨ids2, hm2, hx2⟩ := removeId_preserves_mem hfm hfx hene
          exact ⟨(f.1, ids2), hm2, hfp, hx2⟩
        case Ask =>
          rw [hes] at hfm
          simp only [OrderBook.sideLadder] at hfm ⊢
          exact ⟨f, hfm, hfp, hfx⟩
      · have hsub : ((ladderIds (Ladder.removeId b.bids_by_price o.price id)) ++
            ladderIds b.asks_by_price).Sublist (allLadderIds b) :=
          List.Sublist.append (ladderIds_removeId_sublist _ _ _) (List.Sublist.refl _)
        exact hsub.nodup hwf.idsNodup
      · exact noEmpty_removeId hwf.bidsNoEmpty _ _
      · exact hwf.asksNoEmpty
    case Ask =>
      rw [remove_order_eq_ask hf hs]
      have hOnlyA : ∀ e ∈ b.asks_by_price, id ∈ e.2 → e.1 = o.price :=
        fun e he hx => (hask_side e he id hx rfl).2.symm
      have hnoid : id ∉ ladderIds (Ladder.removeId b.asks_by_price o.price id) :=
        removeId_not_mem hOnlyA hwf.asksSorted
      refine ⟨?_, ?_, ?_, ?_, ?_, ?_, ?_, ?_, ?_, ?_⟩
      · exact nodup_keysOf_eraseEntry _ _ hwf.ordersNodup
      · intro e he
        exact hwf.orderKey e ((eraseEntry_sublist _ _).subset he)
      · exact hwf.bidsSorted
      · exact hwf.asksSorted.sublist (keysOf_removeId_sublist _ _ _)
      · intro e he x hx
        have hxid : x ≠ id := by
          intro hxe
          have h3 := (hbid_side e he x hx hxe).1
          rw [hs] at h3
          exact Side.noConfusion h3
        rw [findEntry_eraseEntry_ne b.orders id x hxid]
        exact hwf.bidsToIndex e he x hx
      · intro e he x hx
        obtain ⟨ids0, hm0, hsub⟩ := mem_slot_removeId he
        have hx0 : x ∈ ids0 := hsub x hx
        have hxid : x ≠ id := by
          intro hxe
          subst hxe
          exact hnoid (mem_ladderIds.2 ⟨e, he, hx⟩)
        rw [findEntry_eraseEntry_ne b.orders id x hxid]
        exact hwf.asksToIndex (e.1, ids0) hm0 x hx0
      · intro e he
        have heb : e ∈ b.orders := (eraseEntry_sublist _ _).subset he
        have hene : e.1 ≠ id := hene_of_mem e he
        obtain ⟨f, hfm, hfp, hfx⟩ := hwf.indexToLadder e heb
        cases hes : Order.side e.2
        case Bid =>
          rw [hes] at hfm
          simp only [OrderBook.sideLadder] at hfm ⊢
          exact ⟨f, hfm, hfp, hfx⟩
        case Ask =>
          rw [hes] at hfm
          simp only [OrderBook.sideLadder] at hfm ⊢
          obtain ⟨ids2, hm2, hx2⟩ := removeId_preserves_mem hfm hfx hene
          exact ⟨(f.1, ids2), hm2, hfp, hx2⟩
      · have hsub : ((ladderIds b.bids_by_price) ++
            ladderIds (Ladder.removeId b.asks_by_price o.price id)).Sublist (allLadderIds b) :=
          List.Sublist.append (List.Sublist.refl _) (ladderIds_removeId_sublist _ _ _)
        exact hsub.nodup hwf.idsNodup
      · exact hwf.bidsNoEmpty
      · exact noEmpty_removeId hwf.asksNoEmpty _ _

theorem remove_order_orders (b : OrderBook) (id : String) :
    ((b.remove_order id).1).orders =
      if (findEntry b.orders id).isSome then eraseEntry b.orders id else b.orders := by
  rcases hf : findEntry b.orders id with _ | o
  · rw [remove_order_eq_none hf]
    simp
  · cases hs : o.side
    · rw [remove_order_eq_bid hf hs]
      simp [hf]
    · rw [remove_order_eq_ask hf hs]
      simp [hf]

theorem add_order_eq_bid {b b0 : OrderBook} {o : Order} (hs : o.side = Side.Bid)
    (hb0 : b0 = if (findEntry b.orders o.id).isSome then (b.remove_order o.id).1 else b) :
    b.add_order o =
      ({ b0 with
          orders := insertEntry b0.orders o.id o,
          bids_by_price := b0.bids_by_price.push o.price o.id,
          sequence := b0.sequence + 1 }, true) := by
  subst hb0
  simp only [OrderBook.add_order, hs]

theorem add_order_eq_ask {b b0 : OrderBook} {o : Order} (hs : o.side = Side.Ask)
    (hb0 : b0 = if (findEntry b.orders o.id).isSome then (b.remove_order o.id).1 else b) :
    b.add_order o =
      ({ b0 with
          orders := insertEntry b0.orders o.id o,
          asks_by_price := b0.asks_by_price.push o.price o.id,
          sequence := b0.sequence + 1 }, true) := by
  subst hb0
  simp only [OrderBook.add_order, hs]

theorem WF_add {b : OrderBook} (hwf : b.WF) (o : Order) : ((b.add_order o).1).WF := by
  set b0 := if (findEntry b.orders o.id).isSome then (b.remove_order o.id).1 else b with hb0
  have hwf0 : b0.WF := by
    rw [hb0]
    by_cases h : (findEntry b.orders o.id).isSome
    · rw [if_pos h]
      exact WF_remove hwf o.id
    · rw [if_neg h]
      exact hwf
  have hnone : findEntry b0.orders o.id = none := by
    rw [hb0]
    by_cases h : (findEntry b.orders o.id).isSome
    · rw [if_pos h, remove_order_orders, if_pos h]
      exact findEntry_eraseEntry_self _ _ hwf.ordersNodup
    · rw [if_neg h]
      exact Option.not_isSome_iff_eq_none.1 h
  have hnotbid : o.id ∉ ladderIds b0.bids_by_price := by
    intro hm
    obtain ⟨e, he, hx⟩ := mem_ladderIds.1 hm
    have h2 := hwf0.bidsToIndex e he o.id hx
    rw [hnone] at h2
    simp at h2
  have hnotask : o.id ∉ ladderIds b0.asks_by_price := by
    intro hm
    obtain ⟨e, he, hx⟩ := mem_ladderIds.1 hm
    have h2 := hwf0.asksToIndex e he o.id hx
    rw [hnone] at h2
    simp at h2
  cases hs : o.side
  case Bid =>
    rw [add_order_eq_bid hs hb0]
    refine ⟨?_, ?_, ?_, ?_, ?_, ?_, ?_, ?_, ?_, ?_⟩
    · exact nodup_keysOf_insertEntry _ _ _ hwf0.ordersNodup
    · intro e he
      rcases mem_insertEntry he with rfl | hold
      · rfl
      · exact hwf0.orderKey e hold
    · exact pairwise_keysOf_push _ _ _ hwf0.bidsSorted
    · exact hwf0.asksSorted
    · intro e he x hx
      rcases mem_slot_push he x hx with ⟨hep, rfl⟩ | ⟨ids0, hm0, hx0⟩
      · rw [findEntry_insertEntry_self]
        simp [hs, hep]
      · have hxm : x ∈ ladderIds b0.bids_by_price := mem_ladderIds.2 ⟨(e.1, ids0), hm0, hx0⟩
        have hxne : x ≠ o.id := fun hc => hnotbid (hc ▸ hxm)
        rw [findEntry_insertEntry_ne _ _ _ _ hxne]
        exact hwf0.bidsToIndex (e.1, ids0) hm0 x hx0
    · intro e he x hx
      have hxm : x ∈ ladderIds b0.asks_by_price := mem_ladderIds.2 ⟨e, he, hx⟩
      have hxne : x ≠ o.id := fun hc => hnotask (hc ▸ hxm)
      rw [findEntry_insertEntry_ne _ _ _ _ hxne]
      exact hwf0.asksToIndex e he x hx
    · intro e he
      rcases mem_insertEntry he with rfl | hold
      · simp only [OrderBook.sideLadder, hs]
        obtain ⟨ids, hmem, hin⟩ := push_mem_self b0.bids_by_price o.price o.id
        exact ⟨(o.price, ids), hmem, rfl, hin⟩
      · obtain ⟨f, hfm, hfp, hfx⟩ := hwf0.indexToLadder e hold
        cases hes : Order.side e.2
        case Bid =>
          rw [hes] at hfm
          simp only [OrderBook.sideLadder] at hfm ⊢
          obtain ⟨ids2, hm2, hx2⟩ := push_preserves_mem hfm o.price o.id hfx
          exact ⟨(f.1, ids2), hm2, hfp, hx2⟩
        case Ask =>
          rw [hes] at hfm
          simp only [OrderBook.sideLadder] at hfm ⊢
          exact ⟨f, hfm, hfp, hfx⟩
    · have hperm : ((ladderIds (b0.bids_by_price.push o.price o.id)) ++
          ladderIds b0.asks_by_price).Perm (o.id :: allLadderIds b0) := by
        have h1 := List.Perm.append (ladderIds_push_perm b0.bids_by_price o.price o.id)
          (List.Perm.refl (ladderIds b0.asks_by_price))
        simpa [allLadderIds] using h1
      refine hperm.nodup_iff.2 (List.nodup_cons.2 ⟨?_, hwf0.idsNodup⟩)
      intro hm
      rcases List.mem_append.1 hm with hm | hm
      · exact hnotbid hm
      · exact hnotask hm
    · exact noEmpty_push hwf0.bidsNoEmpty _ _
    · exact hwf0.asksNoEmpty
  case Ask =>
    rw [add_order_eq_ask hs hb0]
    refine ⟨?_, ?_, ?_, ?_, ?_, ?_, ?_, ?_, ?_, ?_⟩
    · exact nodup_keysOf_insertEntry _ _ _ hwf0.ordersNodup
    · intro e he
      rcases mem_insertEntry he with rfl | hold
      · rfl
      · exact hwf0.orderKey e hold
    · exact hwf0.bidsSorted
    · exact pairwise_keysOf_push _ _ _ hwf0.asksSorted
    · intro e he x hx
      have hxm : x ∈ ladderIds b0.bids_by_price := mem_ladderIds.2 ⟨e, he, hx⟩
      have hxne : x ≠ o.id := fun hc => hnotbid (hc ▸ hxm)
      rw [findEntry_insertEntry_ne _ _ _ _ hxne]
      exact hwf0.bidsToIndex e he x hx
    · intro e he x hx
      rcases mem_slot_push he x hx with ⟨hep, rfl⟩ | ⟨ids0, hm0, hx0⟩
      · rw [findEntry_insertEntry_self]
        simp [hs, hep]
      · have hxm : x ∈ ladderIds b0.asks_by_price := mem_ladderIds.2 ⟨(e.1, ids0), hm0, hx0⟩
        have hxne : x ≠ o.id := fun hc => hnotask (hc ▸ hxm)
        rw [findEntry_insertEntry_ne _ _ _ _ hxne]
        exact hwf0.asksToIndex (e.1, ids0) hm0 x hx0
    · intro e he
      rcases mem_insertEntry he with rfl | hold
      · simp only [OrderBook.sideLadder, hs]
        obtain ⟨ids, hmem, hin⟩ := push_mem_self b0.asks_by_price o.price o.id
        exact ⟨(o.price, ids), hmem, rfl, hin⟩
      · obtain ⟨f, hfm, hfp, hfx⟩ := hwf0.indexToLadder e hold
        cases hes : Order.side e.2
        case Bid =>
          rw [hes] at hfm
          simp only [OrderBook.sideLadder] at hfm ⊢
          exact ⟨f, hfm, hfp, hfx⟩
        case Ask =>
          rw [hes] at hfm
          simp only [OrderBook.sideLadder] at hfm ⊢
          obtain ⟨ids2, hm2, hx2⟩ := push_preserves_mem hfm o.price o.id hfx
          exact ⟨(f.1, ids2), hm2, hfp, hx2⟩
    · have hperm : ((ladderIds b0.bids_by_price) ++
          ladderIds (b0.asks_by_price.push o.price o.id)).Perm
            (ladderIds b0.bids_by_price ++ (o.id :: ladderIds b0.asks_by_price)) :=
        List.Perm.append (List.Perm.refl _) (ladderIds_push_perm b0.asks_by_price o.price o.id)
      have hmid : (ladderIds b0.bids_by_price ++ o.id :: ladderIds b0.asks_by_price).Perm
          (o.id :: (ladderIds b0.bids_by_price ++ ladderIds b0.asks_by_price)) :=
        List.perm_middle
      have hperm2 := hperm.trans hmid
      refine hperm2.nodup_iff.2 (List.nodup_cons.2 ⟨?_, hwf0.idsNodup⟩)
      intro hm
      rcases List.mem_append.1 hm with hm | hm
      · exact hnotbid hm
      · exact hnotask hm
    · exact hwf0.bidsNoEmpty
    · exact noEmpty_push hwf0.asksNoEmpty _ _

theorem update_order_eq_found {b : OrderBook} {id : String} {q : Nat} {now : Int}
    {o : Order} (hq : q ≠ 0) (hf : findEntry b.orders id = some o) :
    b.update_order id q now =
      ({ b with
          orders := insertEntry b.orders id (o.update_quantity q now),
          sequence := b.sequence + 1 }, true) := by
  simp [OrderBook.update_order, hq, hf]

theorem WF_update {b : OrderBook} (hwf : b.WF) (id : String) (q : Nat) (now : Int) :
    ((b.update_order id q now).1).WF := by
  by_cases hq : q = 0
  · rw [OrderBook.update_order, if_pos hq]
    exact WF_remove hwf id
  · rcases hf : findEntry b.orders id with _ | o
    · rw [OrderBook.update_order, if_neg hq, hf]
      exact hwf
    · have hmem : (id, o) ∈ b.orders := findEntry_mem hf
      have hoid : o.id = id := hwf.orderKey _ hmem
      rw [update_order_eq_found hq hf]
      refine ⟨?_, ?_, ?_, ?_, ?_, ?_, ?_, ?_, ?_, ?_⟩
      · exact nodup_keysOf_insertEntry _ _ _ hwf.ordersNodup
      · intro e he
        rcases mem_insertEntry he with rfl | hold
        · exact hoid
        · exact hwf.orderKey e hold
      · exact hwf.bidsSorted
      · exact hwf.asksSorted
      · intro e he x hx
        have hold := hwf.bidsToIndex e he x hx
        by_cases hxe : x = id
        · subst hxe
          rw [findEntry_insertEntry_self]
          rw [hf] at hold
          simpa [Order.update_quantity] using hold
        · rw [findEntry_insertEntry_ne _ _ _ _ hxe]
          exact hold
      · intro e he x hx
        have hold := hwf.asksToIndex e he x hx
        by_cases hxe : x = id
        · subst hxe
          rw [findEntry_insertEntry_self]
          rw [hf] at hold
          simpa [Order.update_quantity] using hold
        · rw [findEntry_insertEntry_ne _ _ _ _ hxe]
          exact hold
      · intro e he
        rcases mem_insertEntry he with rfl | hold
        · obtain ⟨f, hfm, hfp, hfx⟩ := hwf.indexToLadder (id, o) hmem
          refine ⟨f, ?_, ?_, ?_⟩
          · simpa [Order.update_quantity, OrderBook.sideLadder] using hfm
          · simpa [Order.update_quantity] using hfp
          · exact hfx
        · exact hwf.indexToLadder e hold
      · exact hwf.idsNodup
      · exact hwf.bidsNoEmpty
      · exact hwf.asksNoEmpty

theorem WF_applyOp {b : OrderBook} (hwf : b.WF) (op : BookOp) : (b.applyOp op).WF := by
  cases op with
  | addOrd o => exact WF_add hwf o
  | updateOrd id q now => exact WF_update hwf id q now
  | removeOrd id => exact WF_remove hwf id

theorem WF_applyOps (ops : List BookOp) {b : OrderBook} (hwf : b.WF) :
    (b.applyOps ops).WF := by
  induction ops generalizing b with
  | nil => exact hwf
  | cons op rest ih =>
    have h1 : b.applyOps (op :: rest) = (b.applyOp op).applyOps rest := by
      simp [OrderBook.applyOps]
    rw [h1]
    exact ih (WF_applyOp hwf op)

theorem wf_count_one {b : OrderBook} (hwf : b.WF) {e : String × Order}
    (he : e ∈ b.orders) : (allLadderIds b).count e.1 = 1 := by
  obtain ⟨f, hfm, hfp, hfx⟩ := hwf.indexToLadder e he
  have hmem : e.1 ∈ allLadderIds b := by
    cases hes : Order.side e.2
    case Bid =>
      rw [hes] at hfm
      simp only [OrderBook.sideLadder] at hfm
      exact List.mem_append_left _ (mem_ladderIds.2 ⟨f, hfm, hfx⟩)
    case Ask =>
      rw [hes] at hfm
      simp only [OrderBook.sideLadder] at hfm
      exact List.mem_append_right _ (mem_ladderIds.2 ⟨f, hfm, hfx⟩)
  exact List.count_eq_one_of_mem hwf.idsNodup hmem

/-- C3: in every book state reachable from a fresh `OrderBook` by
add/update/remove operations, (a) every order id resting in a price ladder at
side S and price P resolves in the order index to an order with that side and
price, (b) every indexed order id occupies exactly one ladder slot (its count
across all slots of both ladders is exactly one), and (c) no price key in
either ladder maps to an empty order-id sequence. -/
theorem C3_reachable_ladder_invariants (sym : String) (ops : List BookOp) :
    ladderMatchesIndex ((OrderBook.new sym).applyOps ops)
        ((OrderBook.new sym).applyOps ops).bids_by_price Side.Bid ∧
    ladderMatchesIndex ((OrderBook.new sym).applyOps ops)
        ((OrderBook.new sym).applyOps ops).asks_by_price Side.Ask ∧
    (∀ e ∈ ((OrderBook.new sym).applyOps ops).orders,
        (allLadderIds ((OrderBook.new sym).applyOps ops)).count e.1 = 1) ∧
    (∀ e ∈ ((OrderBook.new sym).applyOps ops).bids_by_price, e.2 ≠ []) ∧
    (∀ e ∈ ((OrderBook.new sym).applyOps ops).asks_by_price, e.2 ≠ []) := by
  have hwf := WF_applyOps ops (WF_new sym)
  exact ⟨hwf.bidsToIndex, hwf.asksToIndex, fun e he => wf_count_one hwf he,
    hwf.bidsNoEmpty, hwf.asksNoEmpty⟩

theorem add_order_find_self (b : OrderBook) (o : Order) :
    findEntry (((b.add_order o).1).orders) o.id = some o := by
  cases hs : o.side
  case Bid =>
    rw [add_order_eq_bid hs rfl]
    exact findEntry_insertEntry_self _ _ _
  case Ask =>
    rw [add_order_eq_ask hs rfl]
    exact findEntry_insertEntry_self _ _ _

/-- C4: on a well-formed book, `add_order(o1)` immediately followed by
`add_order(o2)` with the same id but different price and quantity leaves
exactly one resting order with that id — the index maps the id to `o2`
(hence the second quantity), the id occupies exactly one ladder slot, and any
slot of `o2`'s side holding the id is keyed by `o2`'s price. -/
theorem C4_upsert_law (b : OrderBook) (o1 o2 : Order) (hwf : b.WF)
    (hid : o1.id = o2.id) (hp : o1.price ≠ o2.price) (hq : o1.quantity ≠ o2.quantity) :
    findEntry ((((b.add_order o1).1).add_order o2).1).orders o2.id = some o2 ∧
    (allLadderIds ((((b.add_order o1).1).add_order o2).1)).count o2.id = 1 ∧
    (∀ f ∈ ((((b.add_order o1).1).add_order o2).1).sideLadder o2.side,
        o2.id ∈ f.2 → f.1 = o2.price) := by
  have hwf2 : ((((b.add_order o1).1).add_order o2).1).WF := WF_add (WF_add hwf o1) o2
  have hfind := add_order_find_self ((b.add_order o1).1) o2
  refine ⟨hfind, ?_, ?_⟩
  · exact wf_count_one hwf2 (findEntry_mem hfind)
  · intro f hf hx
    cases hs : o2.side
    case Bid =>
      rw [hs] at hf
      simp only [OrderBook.sideLadder] at hf
      have h2 := hwf2.bidsToIndex f hf o2.id hx
      rw [hfind] at h2
      simp at h2
      exact h2.2.symm
    case Ask =>
      rw [hs] at hf
      simp only [OrderBook.sideLadder] at hf
      have h2 := hwf2.asksToIndex f hf o2.id hx
      rw [hfind] at h2
      simp at h2
      exact h2.2.symm

/-- Witness for C4 at a concrete input: fresh book, id "x" added at price 100
quantity 5, then re-added at price 101 quantity 7. -/
theorem C4_witness :
    findEntry (((((OrderBook.new "S").add_order (Order.new "x" 100 5 Side.Bid 0)).1).add_order
        (Order.new "x" 101 7 Side.Bid 1)).1).orders (Order.new "x" 101 7 Side.Bid 1).id =
      some (Order.new "x" 101 7 Side.Bid 1) ∧
    (allLadderIds (((((OrderBook.new "S").add_order (Order.new "x" 100 5 Side.Bid 0)).1).add_order
        (Order.new "x" 101 7 Side.Bid 1)).1)).count (Order.new "x" 101 7 Side.Bid 1).id = 1 ∧
    (∀ f ∈ (((((OrderBook.new "S").add_order (Order.new "x" 100 5 Side.Bid 0)).1).add_order
        (Order.new "x" 101 7 Side.Bid 1)).1).sideLadder (Order.new "x" 101 7 Side.Bid 1).side,
        (Order.new "x" 101 7 Side.Bid 1).id ∈ f.2 → f.1 = (Order.new "x" 101 7 Side.Bid 1).price) :=
  C4_upsert_law (OrderBook.new "S") (Order.new "x" 100 5 Side.Bid 0)
    (Order.new "x" 101 7 Side.Bid 1) (WF_new "S") (by decide) (by decide) (by decide)

/-- C10: on a book containing order `o` under id `id`, `update_order(id, q)`
with `q > 0` succeeds, leaves both price ladders (every slot's position and
contents), the symbol, and every other index binding unchanged, increments the
sequence counter by exactly one, and rebinds `id` to `o` with only its
quantity (now `q`) and resting timestamp changed. -/
theorem C10_update_order_frame (b : OrderBook) (id : String) (q : Nat) (now : Int)
    (o : Order) (hf : findEntry b.orders id = some o) (hq : 0 < q) :
    (b.update_order id q now).2 = true ∧
    ((b.update_order id q now).1).bids_by_price = b.bids_by_price ∧
    ((b.update_order id q now).1).asks_by_price = b.asks_by_price ∧
    ((b.update_order id q now).1).symbol = b.symbol ∧
    ((b.update_order id q now).1).sequence = b.sequence + 1 ∧
    findEntry ((b.update_order id q now).1).orders id =
      some { o with quantity := q, timestamp := now } ∧
    (∀ x, x ≠ id → findEntry ((b.update_order id q now).1).orders x = findEntry b.orders x) := by
  have hq' : q ≠ 0 := Nat.pos_iff_ne_zero.1 hq
  rw [update_order_eq_found hq' hf]
  refine ⟨rfl, rfl, rfl, rfl, rfl, ?_, ?_⟩
  · rw [findEntry_insertEntry_self]
    rfl
  · intro x hx
    exact findEntry_insertEntry_ne _ _ _ _ hx

/-- A small concrete book shared by several witnesses: a fresh book holding
one bid "x" at price 100, quantity 5. -/
def wBook : OrderBook :=
  ((OrderBook.new "S").add_order (Order.new "x" 100 5 Side.Bid 0)).1

/-- Witness for C10 at a concrete input: update "x" to quantity 7 at time 9. -/
theorem C10_witness :
    (wBook.update_order "x" 7 9).2 = true ∧
    ((wBook.update_order "x" 7 9).1).bids_by_price = wBook.bids_by_price ∧
    ((wBook.update_order "x" 7 9).1).asks_by_price = wBook.asks_by_price ∧
    ((wBook.update_order "x" 7 9).1).symbol = wBook.symbol ∧
    ((wBook.update_order "x" 7 9).1).sequence = wBook.sequence + 1 ∧
    findEntry ((wBook.update_order "x" 7 9).1).orders "x" =
      some { Order.new "x" 100 5 Side.Bid 0 with quantity := 7, timestamp := 9 } ∧
    (∀ x, x ≠ "x" → findEntry ((wBook.update_order "x" 7 9).1).orders x =
      findEntry wBook.orders x) :=
  C10_update_order_frame wBook "x" 7 9 (Order.new "x" 100 5 Side.Bid 0)
    (by decide) (by decide)

/-! ### MBP projection lemmas (C5) -/

/-- Running sums: `partialSums acc [q1, q2, ...] = [acc+q1, acc+q1+q2, ...]`. -/
def partialSums (acc : Nat) : List Nat → List Nat
  | [] => []
  | q :: rest => (acc + q) :: partialSums (acc + q) rest

theorem mbpLoop_length (b : OrderBook) (side : Side) (levels : List (ℚ × List String))
    (cum : Nat) : (mbpLoop b side levels cum).length ≤ levels.length := by
  induction levels generalizing cum with
  | nil => simp [mbpLoop]
  | cons e rest ih =>
    obtain ⟨pk, ids⟩ := e
    rw [mbpLoop]
    by_cases h : (ids.filterMap (findEntry b.orders)).isEmpty
    · rw [if_pos h]
      exact (ih cum).trans (Nat.le_succ _)
    · rw [if_neg h]
      simpa using ih _

theorem mbpLoop_prices_sublist (b : OrderBook) (side : Side)
    (levels : List (ℚ × List String)) (cum : Nat) :
    ((mbpLoop b side levels cum).map MBPLevel.price).Sublist (levels.map Prod.fst) := by
  induction levels generalizing cum with
  | nil => simp [mbpLoop]
  | cons e rest ih =>
    obtain ⟨pk, ids⟩ := e
    rw [mbpLoop]
    by_cases h : (ids.filterMap (findEntry b.orders)).isEmpty
    · rw [if_pos h]
      exact (ih cum).trans (List.sublist_cons_self _ _)
    · rw [if_neg h]
      simpa using (ih _).cons₂ pk

theorem mbpLoop_totals (b : OrderBook) (side : Side)
    (levels : List (ℚ × List String)) (cum : Nat) :
    (mbpLoop b side levels cum).map MBPLevel.total_quantity =
      partialSums cum ((mbpLoop b side levels cum).map MBPLevel.quantity) := by
  induction levels generalizing cum with
  | nil => simp [mbpLoop, partialSums]
  | cons e rest ih =>
    obtain ⟨pk, ids⟩ := e
    rw [mbpLoop]
    by_cases h : (ids.filterMap (findEntry b.orders)).isEmpty
    · rw [if_pos h]
      exact ih cum
    · rw [if_neg h]
      simp only [List.map_cons, partialSums]
      exact congrArg _ (ih _)

theorem partialSums_chain (qs : List Nat) (acc : Nat) :
    List.Chain' (· ≤ ·) (partialSums acc qs) := by
  induction qs generalizing acc with
  | nil => simp [partialSums]
  | cons q rest ih =>
    rw [partialSums]
    apply List.chain'_cons'.2
    refine ⟨?_, ih (acc + q)⟩
    intro v hv
    cases rest with
    | nil => simp [partialSums] at hv
    | cons q2 r2 =>
      rw [partialSums] at hv
      simp only [List.head?_cons, Option.mem_def, Option.some.injEq] at hv
      omega

theorem sidePrices_keys_bid (b : OrderBook) (hwf : b.WF) :
    ((b.sidePrices Side.Bid).map Prod.fst).Pairwise (· > ·) := by
  have h1 : (b.sidePrices Side.Bid).map Prod.fst = (keysOf b.bids_by_price).reverse := by
    simp [OrderBook.sidePrices, keysOf]
  rw [h1, List.pairwise_reverse]
  exact hwf.bidsSorted

theorem sidePrices_keys_ask (b : OrderBook) (hwf : b.WF) :
    ((b.sidePrices Side.Ask).map Prod.fst).Pairwise (· < ·) := by
  simpa [OrderBook.sidePrices, keysOf] using hwf.asksSorted

theorem get_mbp_side_prices_pairwise_bid (b : OrderBook) (K : Nat) (hwf : b.WF) :
    ((b.get_mbp_side Side.Bid K).map MBPLevel.price).Pairwise (· > ·) := by
  have hsub := mbpLoop_prices_sublist b Side.Bid ((b.sidePrices Side.Bid).take K) 0
  have h2 : (((b.sidePrices Side.Bid).take K).map Prod.fst).Sublist
      ((b.sidePrices Side.Bid).map Prod.fst) := by
    rw [List.map_take]
    exact List.take_sublist _ _
  exact ((sidePrices_keys_bid b hwf).sublist h2).sublist hsub

theorem get_mbp_side_prices_pairwise_ask (b : OrderBook) (K : Nat) (hwf : b.WF) :
    ((b.get_mbp_side Side.Ask K).map MBPLevel.price).Pairwise (· < ·) := by
  have hsub := mbpLoop_prices_sublist b Side.Ask ((b.sidePrices Side.Ask).take K) 0
  have h2 : (((b.sidePrices Side.Ask).take K).map Prod.fst).Sublist
      ((b.sidePrices Side.Ask).map Prod.fst) := by
    rw [List.map_take]
    exact List.take_sublist _ _
  exact ((sidePrices_keys_ask b hwf).sublist h2).sublist hsub

/-- C5: for every well-formed book and depth `K`, each side of the MBP
projection has at most `K` rows; bid prices strictly decrease row to row and
ask prices strictly increase; and each row's cumulative quantity
(`total_quantity`) equals the running sum of the per-row quantities up to and
including it — hence is non-decreasing. -/
theorem C5_mbp_invariants (b : OrderBook) (K : Nat) (hwf : b.WF) :
    (b.get_mbp_side Side.Bid K).length ≤ K ∧
    (b.get_mbp_side Side.Ask K).length ≤ K ∧
    List.Chain' (· > ·) ((b.get_mbp_side Side.Bid K).map MBPLevel.price) ∧
    List.Chain' (· < ·) ((b.get_mbp_side Side.Ask K).map MBPLevel.price) ∧
    (b.get_mbp_side Side.Bid K).map MBPLevel.total_quantity =
      partialSums 0 ((b.get_mbp_side Side.Bid K).map MBPLevel.quantity) ∧
    (b.get_mbp_side Side.Ask K).map MBPLevel.total_quantity =
      partialSums 0 ((b.get_mbp_side Side.Ask K).map MBPLevel.quantity) ∧
    List.Chain' (· ≤ ·) ((b.get_mbp_side Side.Bid K).map MBPLevel.total_quantity) ∧
    List.Chain' (· ≤ ·) ((b.get_mbp_side Side.Ask K).map MBPLevel.total_quantity) := by
  refine ⟨?_, ?_, ?_, ?_, ?_, ?_, ?_, ?_⟩
  · exact (mbpLoop_length _ _ _ _).trans
      ((List.length_take_le _ _).trans (le_refl K))
  · exact (mbpLoop_length _ _ _ _).trans
      ((List.length_take_le _ _).trans (le_refl K))
  · exact (get_mbp_side_prices_pairwise_bid b K hwf).chain'
  · exact (get_mbp_side_prices_pairwise_ask b K hwf).chain'
  · exact mbpLoop_totals b Side.Bid _ 0
  · exact mbpLoop_totals b Side.Ask _ 0
  · rw [OrderBook.get_mbp_side, mbpLoop_totals b Side.Bid _ 0]
    exact partialSums_chain _ 0
  · rw [OrderBook.get_mbp_side, mbpLoop_totals b Side.Ask _ 0]
    exact partialSums_chain _ 0

/-! ### MBO projection lemmas (C6) -/

theorem nodup_key_eq {κ ν : Type} [DecidableEq κ] {l : List (κ × ν)} {k : κ}
    {v1 v2 : ν} (hnd : (keysOf l).Nodup) (h1 : (k, v1) ∈ l) (h2 : (k, v2) ∈ l) :
    v1 = v2 := by
  have e1 := mem_findEntry hnd h1
  have e2 := mem_findEntry hnd h2
  rw [e1] at e2
  exact Option.some.inj e2

theorem mboEntries_resolved {b : OrderBook} {s : Side} {p : ℚ}
    (hok : ∀ f ∈ b.orders, Order.id f.2 = f.1) (now : Int) :
    ∀ (ids : List String),
      (∀ x ∈ ids, (findEntry b.orders x).map (fun o => (o.side, o.price)) = some (s, p)) →
      (b.mboEntries now ids).map MBOLevel.order_id = ids ∧
      ∀ lv ∈ b.mboEntries now ids, lv.price = p ∧ lv.side = s
  | [], _ => by simp [OrderBook.mboEntries]
  | x :: rest, hm => by
    have hx := hm x (List.mem_cons_self _ _)
    rcases hf : findEntry b.orders x with _ | o
    · rw [hf] at hx
      simp at hx
    · rw [hf] at hx
      have hx2 : o.side = s ∧ o.price = p := by simpa using hx
      have hoid : o.id = x := hok (x, o) (findEntry_mem hf)
      have ih := mboEntries_resolved hok now rest
        (fun y hy => hm y (List.mem_cons_of_mem _ hy))
      constructor
      · rw [OrderBook.mboEntries, List.filterMap_cons, hf]
        simp only [Option.map_some', List.map_cons]
        rw [show (mkMBOLevel o now).order_id = o.id from rfl, hoid]
        rw [OrderBook.mboEntries] at ih
        rw [ih.1]
      · intro lv hlv
        rw [OrderBook.mboEntries, List.filterMap_cons, hf] at hlv
        simp only [Option.map_some'] at hlv
        rcases List.mem_cons.1 hlv with rfl | hlv
        · exact ⟨hx2.2, hx2.1⟩
        · exact ih.2 lv hlv

theorem filter_flatten_mbo {b : OrderBook} {now : Int} :
    ∀ (L : List (ℚ × List String)) (p : ℚ),
      (∀ e ∈ L, ∀ lv ∈ b.mboEntries now e.2, lv.price = e.1) →
      (∀ e ∈ L, (b.mboEntries now e.2).map MBOLevel.order_id = e.2) →
      (keysOf L).Nodup →
      (((L.map (fun pe => b.mboEntries now pe.2)).flatten.filter
          (fun lv => lv.price = p)).map MBOLevel.order_id) = (findEntry L p).getD []
  | [], p, _, _, _ => by simp [findEntry]
  | e :: L', p, hprices, hids, hnd => by
    have hhead : ∀ e' ∈ e :: L', e' ∈ e :: L' := fun e' he' => he'
    have hndk : (keysOf L').Nodup ∧ e.1 ∉ keysOf L' := by
      simp only [keysOf, List.map_cons, List.nodup_cons] at hnd
      exact ⟨hnd.2, hnd.1⟩
    have ih := filter_flatten_mbo L' p
      (fun f hf => hprices f (List.mem_cons_of_mem _ hf))
      (fun f hf => hids f (List.mem_cons_of_mem _ hf)) hndk.1
    simp only [List.map_cons, List.flatten_cons, List.filter_append, List.map_append]
    by_cases hp : e.1 = p
    · have h1 : (b.mboEntries now e.2).filter (fun lv => lv.price = p) =
          b.mboEntries now e.2 := by
        apply List.filter_eq_self.2
        intro lv hlv
        simp [hprices e (List.mem_cons_self _ _) lv hlv, hp]
      have h3 : findEntry L' p = none :=
        (findEntry_eq_none_iff L' p).2 (hp ▸ hndk.2)
      rw [h3] at ih
      have h4 : ((L'.map (fun pe => b.mboEntries now pe.2)).flatten.filter
          (fun lv => lv.price = p)) = [] := by
        have h5 : ((L'.map (fun pe => b.mboEntries now pe.2)).flatten.filter
            (fun lv => lv.price = p)).map MBOLevel.order_id = [] := by
          simpa using ih
        exact List.map_eq_nil.1 h5
      rw [h1, h4]
      rw [findEntry, if_pos hp]
      simp [hids e (List.mem_cons_self _ _)]
    · have h1 : (b.mboEntries now e.2).filter (fun lv => lv.price = p) = [] := by
        apply List.filter_eq_nil.2
        intro lv hlv
        simp [hprices e (List.mem_cons_self _ _) lv hlv, hp]
      rw [h1, findEntry, if_neg hp]
      simpa using ih

theorem sideLadder_matches (b : OrderBook) (hwf : b.WF) (s : Side) :
    ladderMatchesIndex b (b.sideLadder s) s := by
  cases s
  · exact hwf.bidsToIndex
  · exact hwf.asksToIndex

theorem sidePrices_mem {b : OrderBook} {s : Side} {e : ℚ × List String}
    (he : e ∈ b.sidePrices s) : e ∈ b.sideLadder s := by
  cases s
  · simp only [OrderBook.sidePrices] at he
    exact List.mem_reverse.1 he
  · exact he

theorem sideLadder_keys_nodup (b : OrderBook) (hwf : b.WF) (s : Side) :
    (keysOf (b.sideLadder s)).Nodup := by
  cases s
  · exact hwf.bidsSorted.nodup
  · exact hwf.asksSorted.nodup

theorem sidePrices_keys_nodup (b : OrderBook) (hwf : b.WF) (s : Side) :
    (keysOf (b.sidePrices s)).Nodup := by
  cases s
  · simp only [OrderBook.sidePrices, keysOf, List.map_reverse, List.nodup_reverse]
    exact hwf.bidsSorted.nodup
  · exact hwf.asksSorted.nodup

theorem mbo_take_block_facts (b : OrderBook) (hwf : b.WF) (s : Side) (K : Nat)
    (now : Int) :
    ∀ e ∈ (b.sidePrices s).take K,
      ((b.mboEntries now e.2).map MBOLevel.order_id = e.2 ∧
       ∀ lv ∈ b.mboEntries now e.2, lv.price = e.1 ∧ lv.side = s) := by
  intro e he
  have hel : e ∈ b.sideLadder s :=
    sidePrices_mem ((List.take_sublist _ _).subset he)
  exact mboEntries_resolved hwf.orderKey now e.2
    (fun x hx => sideLadder_matches b hwf s e hel x hx)

theorem mbo_card_le (b : OrderBook) (hwf : b.WF) (s : Side) (K : Nat) (now : Int) :
    ((b.get_mbo_side s K now).map MBOLevel.price).toFinset.card ≤ K := by
  have hblocks := mbo_take_block_facts b hwf s K now
  have hsubset : ((b.get_mbo_side s K now).map MBOLevel.price).toFinset ⊆
      (((b.sidePrices s).take K).map Prod.fst).toFinset := by
    intro p hp
    rw [List.mem_toFinset] at hp ⊢
    obtain ⟨lv, hlv, rfl⟩ := List.mem_map.1 hp
    rw [OrderBook.get_mbo_side] at hlv
    have hlv2 : lv ∈ (((b.sidePrices s).take K).map
        (fun pe => b.mboEntries now pe.2)).flatten :=
      (List.take_sublist _ _).subset hlv
    obtain ⟨blk, hblk, hlvb⟩ := List.mem_flatten.1 hlv2
    obtain ⟨pe, hpe, rfl⟩ := List.mem_map.1 hblk
    have hpq := (hblocks pe hpe).2 lv hlvb
    exact List.mem_map.2 ⟨pe, hpe, hpq.1.symm⟩
  calc ((b.get_mbo_side s K now).map MBOLevel.price).toFinset.card
      ≤ (((b.sidePrices s).take K).map Prod.fst).toFinset.card :=
        Finset.card_le_card hsubset
    _ ≤ (((b.sidePrices s).take K).map Prod.fst).length := List.toFinset_card_le _
    _ = ((b.sidePrices s).take K).length := List.length_map _ _
    _ ≤ K := List.length_take_le _ _

theorem mbo_length_le (b : OrderBook) (s : Side) (K : Nat) (now : Int) :
    (b.get_mbo_side s K now).length ≤ 3 * K := by
  rw [OrderBook.get_mbo_side]
  exact (List.length_take_le _ _).trans (by omega)

theorem mbo_prices_pairwise (b : OrderBook) (hwf : b.WF) (s : Side) (K : Nat)
    (now : Int) {R : ℚ → ℚ → Prop} (hrefl : ∀ a, R a a)
    (hkeys : (((b.sidePrices s).take K).map Prod.fst).Pairwise R) :
    ((b.get_mbo_side s K now).map MBOLevel.price).Pairwise R := by
  have hblocks := mbo_take_block_facts b hwf s K now
  have hpw : ((((b.sidePrices s).take K).map
      (fun pe => b.mboEntries now pe.2)).flatten.map MBOLevel.price).Pairwise R := by
    rw [List.map_flatten, List.map_map]
    apply List.pairwise_flatten.2
    refine ⟨?_, ?_⟩
    · intro pl hpl
      obtain ⟨pe, hpe, rfl⟩ := List.mem_map.1 hpl
      apply List.pairwise_of_forall_mem_list
      intro a ha c hc
      simp only [Function.comp_apply] at ha hc
      obtain ⟨lva, hlva, rfl⟩ := List.mem_map.1 ha
      obtain ⟨lvc, hlvc, rfl⟩ := List.mem_map.1 hc
      rw [((hblocks pe hpe).2 lva hlva).1, ((hblocks pe hpe).2 lvc hlvc).1]
      exact hrefl _
    · rw [List.pairwise_map]
      have hk2 := (List.pairwise_map).1 hkeys
      apply hk2.imp_of_mem
      intro e1 e2 he1 he2 hR
      intro a ha c hc
      simp only [Function.comp_apply] at ha hc
      obtain ⟨lva, hlva, rfl⟩ := List.mem_map.1 ha
      obtain ⟨lvc, hlvc, rfl⟩ := List.mem_map.1 hc
      rw [((hblocks e1 he1).2 lva hlva).1, ((hblocks e2 he2).2 lvc hlvc).1]
      exact hR
  rw [OrderBook.get_mbo_side]
  exact hpw.sublist ((List.take_sublist _ _).map _)

theorem mbo_filter_arrival (b : OrderBook) (hwf : b.WF) (s : Side) (K : Nat)
    (now : Int) :
    ∀ e ∈ b.sideLadder s,
      (((b.get_mbo_side s K now).filter (fun lv => lv.price = e.1)).map
        MBOLevel.order_id).Sublist e.2 := by
  intro e he
  have hblocks := mbo_take_block_facts b hwf s K now
  have hndL : (keysOf ((b.sidePrices s).take K)).Nodup := by
    have : (keysOf ((b.sidePrices s).take K)).Sublist (keysOf (b.sidePrices s)) := by
      simp only [keysOf, List.map_take]
      exact List.take_sublist _ _
    exact this.nodup (sidePrices_keys_nodup b hwf s)
  have hmain := filter_flatten_mbo ((b.sidePrices s).take K) e.1
    (fun f hf lv hlv => ((hblocks f hf).2 lv hlv).1)
    (fun f hf => (hblocks f hf).1) hndL
  have h1 : ((b.get_mbo_side s K now).filter (fun lv => lv.price = e.1)).Sublist
      ((((b.sidePrices s).take K).map (fun pe => b.mboEntries now pe.2)).flatten.filter
        (fun lv => lv.price = e.1)) := by
    rw [OrderBook.get_mbo_side]
    exact (List.take_sublist _ _).filter _
  have h2 := h1.map MBOLevel.order_id
  rw [hmain] at h2
  rcases hfe : findEntry ((b.sidePrices s).take K) e.1 with _ | ids2
  · rw [hfe] at h2
    simp only [Option.getD_none] at h2
    rw [List.sublist_nil.1 h2]
    exact List.nil_sublist _
  · rw [hfe] at h2
    simp only [Option.getD_some] at h2
    have hm2 : (e.1, ids2) ∈ (b.sidePrices s).take K := findEntry_mem hfe
    have hm3 : (e.1, ids2) ∈ b.sideLadder s :=
      sidePrices_mem ((List.take_sublist _ _).subset hm2)
    have hval : ids2 = e.2 :=
      nodup_key_eq (sideLadder_keys_nodup b hwf s) hm3 he
    rw [hval] at h2
    exact h2

/-- C6: for every well-formed book and depth `K`, each side of the MBO
projection draws its rows from at most `K` distinct prices and returns at most
`3 × K` rows; bid rows are ordered by non-increasing price and ask rows by
non-decreasing price (best price first), and within any single price the rows
keep the slot's FIFO arrival order (the row ids at that price form a sublist
of the slot's id sequence). -/
theorem C6_mbo_invariants (b : OrderBook) (K : Nat) (now : Int) (hwf : b.WF) :
    ((b.get_mbo_side Side.Bid K now).map MBOLevel.price).toFinset.card ≤ K ∧
    ((b.get_mbo_side Side.Ask K now).map MBOLevel.price).toFinset.card ≤ K ∧
    (b.get_mbo_side Side.Bid K now).length ≤ 3 * K ∧
    (b.get_mbo_side Side.Ask K now).length ≤ 3 * K ∧
    ((b.get_mbo_side Side.Bid K now).map MBOLevel.price).Pairwise (· ≥ ·) ∧
    ((b.get_mbo_side Side.Ask K now).map MBOLevel.price).Pairwise (· ≤ ·) ∧
    (∀ e ∈ b.bids_by_price, (((b.get_mbo_side Side.Bid K now).filter
        (fun lv => lv.price = e.1)).map MBOLevel.order_id).Sublist e.2) ∧
    (∀ e ∈ b.asks_by_price, (((b.get_mbo_side Side.Ask K now).filter
        (fun lv => lv.price = e.1)).map MBOLevel.order_id).Sublist e.2) := by
  refine ⟨mbo_card_le b hwf _ K now, mbo_card_le b hwf _ K now,
    mbo_length_le b _ K now, mbo_length_le b _ K now, ?_, ?_, ?_, ?_⟩
  · have hrefl : ∀ a : ℚ, a ≥ a := fun a => le_refl a
    apply mbo_prices_pairwise b hwf Side.Bid K now hrefl
    have h1 : ((((b.sidePrices Side.Bid).take K)).map Prod.fst).Sublist
        ((b.sidePrices Side.Bid).map Prod.fst) := by
      rw [List.map_take]
      exact List.take_sublist _ _
    exact ((sidePrices_keys_bid b hwf).sublist h1).imp le_of_lt
  · have hrefl : ∀ a : ℚ, a ≤ a := fun a => le_refl a
    apply mbo_prices_pairwise b hwf Side.Ask K now hrefl
    have h1 : ((((b.sidePrices Side.Ask).take K)).map Prod.fst).Sublist
        ((b.sidePrices Side.Ask).map Prod.fst) := by
      rw [List.map_take]
      exact List.take_sublist _ _
    exact ((sidePrices_keys_ask b hwf).sublist h1).imp le_of_lt
  · exact mbo_filter_arrival b hwf Side.Bid K now
  · exact mbo_filter_arrival b hwf Side.Ask K now

/-- A second concrete witness book: `wBook` plus a lower bid and an ask. -/
def wBook2 : OrderBook :=
  (((wBook.add_order (Order.new "y" 99 3 Side.Bid 2)).1).add_order
    (Order.new "z" 101 4 Side.Ask 3)).1

theorem wBook2_WF : wBook2.WF :=
  WF_add (WF_add (WF_add (WF_new "S") (Order.new "x" 100 5 Side.Bid 0))
    (Order.new "y" 99 3 Side.Bid 2)) (Order.new "z" 101 4 Side.Ask 3)

/-- Witness for C5 at a concrete book and depth 2. -/
theorem C5_witness :
    (wBook2.get_mbp_side Side.Bid 2).length ≤ 2 ∧
    (wBook2.get_mbp_side Side.Ask 2).length ≤ 2 ∧
    List.Chain' (· > ·) ((wBook2.get_mbp_side Side.Bid 2).map MBPLevel.price) ∧
    List.Chain' (· < ·) ((wBook2.get_mbp_side Side.Ask 2).map MBPLevel.price) ∧
    (wBook2.get_mbp_side Side.Bid 2).map MBPLevel.total_quantity =
      partialSums 0 ((wBook2.get_mbp_side Side.Bid 2).map MBPLevel.quantity) ∧
    (wBook2.get_mbp_side Side.Ask 2).map MBPLevel.total_quantity =
      partialSums 0 ((wBook2.get_mbp_side Side.Ask 2).map MBPLevel.quantity) ∧
    List.Chain' (· ≤ ·) ((wBook2.get_mbp_side Side.Bid 2).map MBPLevel.total_quantity) ∧
    List.Chain' (· ≤ ·) ((wBook2.get_mbp_side Side.Ask 2).map MBPLevel.total_quantity) :=
  C5_mbp_invariants wBook2 2 wBook2_WF

/-- Witness for C6 at a concrete book, depth 2, reference time 5. -/
theorem C6_witness :
    ((wBook2.get_mbo_side Side.Bid 2 5).map MBOLevel.price).toFinset.card ≤ 2 ∧
    ((wBook2.get_mbo_side Side.Ask 2 5).map MBOLevel.price).toFinset.card ≤ 2 ∧
    (wBook2.get_mbo_side Side.Bid 2 5).length ≤ 3 * 2 ∧
    (wBook2.get_mbo_side Side.Ask 2 5).length ≤ 3 * 2 ∧
    ((wBook2.get_mbo_side Side.Bid 2 5).map MBOLevel.price).Pairwise (· ≥ ·) ∧
    ((wBook2.get_mbo_side Side.Ask 2 5).map MBOLevel.price).Pairwise (· ≤ ·) ∧
    (∀ e ∈ wBook2.bids_by_price, (((wBook2.get_mbo_side Side.Bid 2 5).filter
        (fun lv => lv.price = e.1)).map MBOLevel.order_id).Sublist e.2) ∧
    (∀ e ∈ wBook2.asks_by_price, (((wBook2.get_mbo_side Side.Ask 2 5).filter
        (fun lv => lv.price = e.1)).map MBOLevel.order_id).Sublist e.2) :=
  C6_mbo_invariants wBook2 2 5 wBook2_WF

/-! ### Best bid/ask and spread (C9) -/

theorem sorted_head_min {l : List ℚ} (h : l.Pairwise (· < ·)) {x : ℚ} (hx : x ∈ l)
    {y : ℚ} (hy : l.head? = some y) : y ≤ x := by
  cases l with
  | nil => simp at hx
  | cons a t =>
    simp only [List.head?_cons, Option.some.injEq] at hy
    subst hy
    rcases List.mem_cons.1 hx with rfl | hm
    · exact le_refl _
    · exact le_of_lt ((List.pairwise_cons.1 h).1 x hm)

theorem sorted_getLast_max {l : List ℚ} (h : l.Pairwise (· < ·)) {x : ℚ} (hx : x ∈ l)
    {y : ℚ} (hy : l.getLast? = some y) : x ≤ y := by
  rw [List.getLast?_eq_head?_reverse] at hy
  have h2 : (l.reverse).Pairwise (· > ·) := List.pairwise_reverse.2 h
  have hm : x ∈ l.reverse := List.mem_reverse.2 hx
  cases hr : l.reverse with
  | nil =>
    rw [hr] at hm
    simp at hm
  | cons a t =>
    rw [hr] at hy hm h2
    simp only [List.head?_cons, Option.some.injEq] at hy
    subst hy
    rcases List.mem_cons.1 hm with rfl | hmm
    · exact le_refl _
    · exact le_of_lt ((List.pairwise_cons.1 h2).1 x hmm)

theorem getLast?_mem_of_eq {l : List ℚ} {y : ℚ} (hy : l.getLast? = some y) : y ∈ l := by
  rw [List.getLast?_eq_head?_reverse] at hy
  exact List.mem_reverse.1 (List.mem_of_mem_head? hy)

/-- C9: on a well-formed book, whenever both sides are non-empty
`get_spread_info` returns exactly `(ask − bid, (bid + ask)/2,
spread/mid × 10000)` where `bid` is the maximum bid price key and `ask` the
minimum ask price key (no constraint on the sign of the spread); whenever
either side is empty, all three components are `none`. -/
theorem C9_spread_info (b : OrderBook) (hwf : b.WF) :
    (b.bids_by_price ≠ [] → b.asks_by_price ≠ [] →
      ∃ bid ask : ℚ,
        bid ∈ keysOf b.bids_by_price ∧ (∀ k ∈ keysOf b.bids_by_price, k ≤ bid) ∧
        ask ∈ keysOf b.asks_by_price ∧ (∀ k ∈ keysOf b.asks_by_price, ask ≤ k) ∧
        b.get_spread_info =
          (some (ask - bid), some ((bid + ask) / 2),
            some ((ask - bid) / ((bid + ask) / 2) * 10000))) ∧
    ((b.bids_by_price = [] ∨ b.asks_by_price = []) →
      b.get_spread_info = (none, none, none)) := by
  constructor
  · intro hb ha
    have hbk : keysOf b.bids_by_price ≠ [] := by
      simpa [keysOf] using hb
    have hak : keysOf b.asks_by_price ≠ [] := by
      simpa [keysOf] using ha
    rcases hbid : (keysOf b.bids_by_price).getLast? with _ | bid
    · rw [List.getLast?_eq_none_iff] at hbid
      exact absurd hbid hbk
    · rcases hask : (keysOf b.asks_by_price).head? with _ | ask
      · rw [List.head?_eq_none_iff] at hask
        exact absurd hask hak
      · refine ⟨bid, ask, getLast?_mem_of_eq hbid,
          fun k hk => sorted_getLast_max hwf.bidsSorted hk hbid,
          List.mem_of_mem_head? hask,
          fun k hk => sorted_head_min hwf.asksSorted hk hask, ?_⟩
        rw [OrderBook.get_spread_info, OrderBook.get_best_bid_ask]
        rw [show (b.bids_by_price.map Prod.fst) = keysOf b.bids_by_price from rfl,
          show (b.asks_by_price.map Prod.fst) = keysOf b.asks_by_price from rfl,
          hbid, hask]
  · intro h
    rcases h with h | h
    · rw [OrderBook.get_spread_info, OrderBook.get_best_bid_ask, h]
      simp
    · rw [OrderBook.get_spread_info, OrderBook.get_best_bid_ask, h]
      simp

/-- Witness for C9: on the concrete book `wBook2`, both sides are non-empty
and the spread formulas hold with the max bid key and min ask key. -/
theorem C9_witness :
    wBook2.bids_by_price ≠ [] ∧ wBook2.asks_by_price ≠ [] ∧
    (∃ bid ask : ℚ,
        bid ∈ keysOf wBook2.bids_by_price ∧ (∀ k ∈ keysOf wBook2.bids_by_price, k ≤ bid) ∧
        ask ∈ keysOf wBook2.asks_by_price ∧ (∀ k ∈ keysOf wBook2.asks_by_price, ask ≤ k) ∧
        wBook2.get_spread_info =
          (some (ask - bid), some ((bid + ask) / 2),
            some ((ask - bid) / ((bid + ask) / 2) * 10000))) :=
  ⟨by decide, by decide,
    (C9_spread_info wBook2 wBook2_WF).1 (by decide) (by decide)⟩

/-! ### Subscription registry lemmas (C1, C7) -/

theorem filter_length_ne_iff {α : Type} (p : α → Bool) (l : List α) :
    (l.filter p).length ≠ l.length ↔ ∃ x ∈ l, p x = false := by
  induction l with
  | nil => simp
  | cons a t ih =>
    by_cases hp : p a
    · simp only [List.filter_cons, hp, if_pos, List.length_cons]
      constructor
      · intro h
        obtain ⟨x, hx, hpx⟩ := ih.1 (fun hc => h (by omega))
        exact ⟨x, List.mem_cons_of_mem _ hx, hpx⟩
      · rintro ⟨x, hx, hpx⟩ hc
        rcases List.mem_cons.1 hx with rfl | hx2
        · rw [hp] at hpx
          exact Bool.noConfusion hpx
        · exact (ih.2 ⟨x, hx2, hpx⟩) (by omega)
    · have hle := List.length_filter_le p t
      have hfc : ((a :: t).filter p).length = (t.filter p).length := by
        simp [List.filter_cons, hp]
      constructor
      · intro _
        exact ⟨a, List.mem_cons_self _ _, Bool.of_not_eq_true hp⟩
      · intro _
        rw [hfc]
        simp only [List.length_cons]
        omega

theorem subMatch_iff (sub : Subscription) (c : Nat) (sid : String) :
    (!(sub.client_id == c && sub.stream_id == sid)) = false ↔
      sub.client_id = c ∧ sub.stream_id = sid := by
  simp

theorem unsubscribeLoop_found_iff (c : Nat) (sid : String) :
    ∀ L : List (String × List Subscription),
      (unsubscribeLoop c sid L).2 = true ↔
        ∃ e ∈ L, ∃ sub ∈ e.2, sub.client_id = c ∧ sub.stream_id = sid
  | [] => by simp [unsubscribeLoop]
  | (sym, subs) :: rest => by
    rw [unsubscribeLoop]
    by_cases h : (subs.filter
        (fun sub => !(sub.client_id == c && sub.stream_id == sid))).length ≠ subs.length
    · rw [if_pos h]
      simp only [true_iff]
      obtain ⟨sub, hsub, hmatch⟩ := (filter_length_ne_iff _ _).1 h
      exact ⟨(sym, subs), List.mem_cons_self _ _, sub, hsub, (subMatch_iff sub c sid).1 hmatch⟩
    · rw [if_neg h]
      have hnone : ∀ sub ∈ subs, ¬ (sub.client_id = c ∧ sub.stream_id = sid) := by
        intro sub hsub hmatch
        exact h ((filter_length_ne_iff _ _).2 ⟨sub, hsub, (subMatch_iff sub c sid).2 hmatch⟩)
      rw [unsubscribeLoop_found_iff c sid rest]
      constructor
      · rintro ⟨e, he, sub, hsub, hm⟩
        exact ⟨e, List.mem_cons_of_mem _ he, sub, hsub, hm⟩
      · rintro ⟨e, he, sub, hsub, hm⟩
        rcases List.mem_cons.1 he with rfl | he2
        · exact absurd hm (hnone sub hsub)
        · exact ⟨e, he2, sub, hsub, hm⟩

theorem unsubscribeLoop_length (c : Nat) (sid : String) :
    ∀ L : List (String × List Subscription),
      (unsubscribeLoop c sid L).1.length = L.length
  | [] => by simp [unsubscribeLoop]
  | (sym, subs) :: rest => by
    rw [unsubscribeLoop]
    by_cases h : (subs.filter
        (fun sub => !(sub.client_id == c && sub.stream_id == sid))).length ≠ subs.length
    · rw [if_pos h]
      simp
    · rw [if_neg h]
      simpa using unsubscribeLoop_length c sid rest

/-- The single subscription of the C7 counterexample registry. -/
def cexC7Sub : Subscription :=
  { stream_id := "s1", symbol := "A", data_type := DataType.MBP,
    max_levels := 5, client_id := 7 }

/-- Concrete registry for the C7 counterexample: one symbol "A" holding a
single subscription of client 7 on stream "s1". -/
def cexC7Mgr : StreamManager :=
  { order_books := [], subscriptions := [("A", [cexC7Sub])], clients := [] }

/-- C7, counterexample: removing the only subscription of symbol "A" through
`StreamManager::unsubscribe` returns `true`, but the symbol keeps its (now
empty) entry in the symbol-to-subscriptions map — the claim's pruning clause
fails on this backend. -/
theorem C7_counterexample_empty_entry_retained :
    (cexC7Mgr.unsubscribe 7 "s1").2 = true ∧
    ((cexC7Mgr.unsubscribe 7 "s1").1).subscriptions = [("A", [])] ∧
    ("A", ([] : List Subscription)) ∈ ((cexC7Mgr.unsubscribe 7 "s1").1).subscriptions := by
  refine ⟨by decide, by decide, by decide⟩

/-- C7 (amended): `StreamManager::unsubscribe` returns `true` exactly when a
subscription with the given client id and stream id is present (the first
symbol entry containing one has its matches filtered out), but it never
prunes symbol entries — the symbol map keeps exactly the same entries, so a
symbol whose subscription set became empty still has an (empty) entry.  Only
the SSE backend's `remove_subscription` prunes: after it, no symbol entry
holds an empty subscription list (it returns no found/not-found result). -/
theorem C7_amended_unsubscribe :
    (∀ (m : StreamManager) (c : Nat) (sid : String),
      ((m.unsubscribe c sid).2 = true ↔
        ∃ e ∈ m.subscriptions, ∃ sub ∈ e.2,
          sub.client_id = c ∧ sub.stream_id = sid) ∧
      ((m.unsubscribe c sid).1).subscriptions.length = m.subscriptions.length) ∧
    (∀ (m : SSEStreamManager) (c : Nat) (sid : String),
      ∀ e ∈ (m.remove_subscription c sid).subscriptions, e.2 ≠ []) := by
  constructor
  · intro m c sid
    constructor
    · exact unsubscribeLoop_found_iff c sid m.subscriptions
    · exact unsubscribeLoop_length c sid m.subscriptions
  · intro m c sid e he
    rw [SSEStreamManager.remove_subscription] at he
    have := (List.mem_filter.1 he).2
    simpa [List.isEmpty_iff] using this

/-- Witness for C7 (amended) at concrete inputs: on `cexC7Mgr` the match is
found (and the entry count is preserved), and the SSE removal of the same
subscription leaves no empty symbol entry. -/
theorem C7_witness :
    (((cexC7Mgr.unsubscribe 7 "s1").2 = true ↔
        ∃ e ∈ cexC7Mgr.subscriptions, ∃ sub ∈ e.2,
          sub.client_id = 7 ∧ sub.stream_id = "s1") ∧
      ((cexC7Mgr.unsubscribe 7 "s1").1).subscriptions.length =
        cexC7Mgr.subscriptions.length) ∧
    (∀ e ∈ (SSEStreamManager.remove_subscription
        { order_books := [], subscriptions := cexC7Mgr.subscriptions,
          clients := [], client_streams := [] } 7 "s1").subscriptions, e.2 ≠ []) :=
  ⟨C7_amended_unsubscribe.1 cexC7Mgr 7 "s1",
    C7_amended_unsubscribe.2
      { order_books := [], subscriptions := cexC7Mgr.subscriptions,
        clients := [], client_streams := [] } 7 "s1"⟩

/-- Concrete manager for the C1 counterexample: symbol "A" known, no client
registered. -/
def cexC1Mgr : StreamManager :=
  { order_books := [("A", OrderBook.new "A")], subscriptions := [], clients := [] }

/-- Constant random draws, for concrete instantiations. -/
def cexDraws : SampleDraws :=
  { bidQty := fun _ => 1000, askQty := fun _ => 1000,
    bidBack := fun _ => 0, askBack := fun _ => 0 }

/-- C1, counterexample: client 0 is not registered in `cexC1Mgr`, yet
`StreamManager::subscribe` returns `Ok(())` — the claim that subscribing with
an unknown client id yields a failure result is false (the initial-snapshot
send is silently skipped when the client lookup misses). -/
theorem C1_counterexample_unknown_client_ok :
    findEntry cexC1Mgr.clients 0 = none ∧
    (cexC1Mgr.subscribe 0 "s1" "A" DataType.MBP (some 5) cexDraws 0).2 =
      Except.ok () := by
  exact ⟨rfl, rfl⟩

theorem subscribe_unknown_client {m : StreamManager} {c : Nat} (sid sym : String)
    (dt : DataType) (ml : Option Nat) (d : SampleDraws) (now : Int)
    (hc : findEntry m.clients c = none) :
    (m.subscribe c sid sym dt ml d now).2 = Except.ok () := by
  rw [StreamManager.subscribe]
  by_cases hb : (findEntry m.order_books sym).isSome
  · rw [if_pos hb]
    rcases hfb : findEntry m.order_books sym with _ | book
    · simp [hfb]
    · simp [hfb, hc]
  · rw [if_neg hb]
    rcases hfb : findEntry (m.initialize_symbol sym d now).order_books sym with _ | book
    · simp [hfb]
    · simp only [StreamManager.initialize_symbol] at hfb ⊢
      simp [hfb, hc]

theorem sse_subscribe_one_unknown {m : SSEStreamManager} {c : Nat}
    (sdef : String × DataType × Nat) (d : SampleDraws) (now : Int)
    (hc : findEntry m.clients c = none) :
    (m.subscribe_one c sdef d now).2 = false ∧
    ((m.subscribe_one c sdef d now).1).clients = m.clients := by
  rw [SSEStreamManager.subscribe_one]
  by_cases hb : (findEntry m.order_books sdef.1).isSome
  · rw [if_pos hb]
    rcases hfb : findEntry m.order_books sdef.1 with _ | book
    · simp [hfb]
    · simp [hfb, hc]
  · rw [if_neg hb]
    rcases hfb : findEntry (insertEntry m.order_books sdef.1
        ((OrderBook.new sdef.1).initialize_with_sample_data d now)) sdef.1 with _ | book
    · simp [hfb]
    · simp [hfb, hc]

/-- C1 (amended): `Subscribe` with a client id that is not registered still
records the subscription and returns success; in both backends the initial
snapshot is skipped when the client lookup misses, and a failure result
arises only from a failed channel send to a registered client. -/
theorem C1_amended_unknown_client_subscribe_succeeds :
    (∀ (m : StreamManager) (c : Nat) (sid sym : String) (dt : DataType)
        (ml : Option Nat) (d : SampleDraws) (now : Int),
      findEntry m.clients c = none →
      (m.subscribe c sid sym dt ml d now).2 = Except.ok ()) ∧
    (∀ (m : SSEStreamManager) (c : Nat)
        (stream_definitions : List (String × DataType × Nat))
        (d : SampleDraws) (now : Int),
      findEntry m.clients c = none →
      (m.subscribe_to_streams c stream_definitions d now).2 = Except.ok ()) := by
  constructor
  · intro m c sid sym dt ml d now hc
    exact subscribe_unknown_client sid sym dt ml d now hc
  · intro m c stream_definitions d now hc
    induction stream_definitions generalizing m with
    | nil => rfl
    | cons sdef rest ih =>
      rw [SSEStreamManager.subscribe_to_streams]
      have h1 := sse_subscribe_one_unknown sdef d now hc
      rw [h1.1]
      simp only [Bool.false_eq_true, if_false]
      exact ih _ (by rw [h1.2]; exact hc)

/-- Witness for C1 (amended) at concrete inputs: the unregistered client 0
subscribing on either backend gets a success result. -/
theorem C1_witness :
    (cexC1Mgr.subscribe 0 "s1" "A" DataType.MBP (some 5) cexDraws 0).2 =
      Except.ok () ∧
    (SSEStreamManager.subscribe_to_streams
      { order_books := [("A", OrderBook.new "A")], subscriptions := [],
        clients := [], client_streams := [] } 0 [("A", DataType.MBP, 5)]
      cexDraws 0).2 = Except.ok () :=
  ⟨C1_amended_unknown_client_subscribe_succeeds.1 cexC1Mgr 0 "s1" "A"
      DataType.MBP (some 5) cexDraws 0 rfl,
    C1_amended_unknown_client_subscribe_succeeds.2
      { order_books := [("A", OrderBook.new "A")], subscriptions := [],
        clients := [], client_streams := [] } 0 [("A", DataType.MBP, 5)]
      cexDraws 0 rfl⟩

/-! ### Sample-book initialization (C8) -/

theorem insertEntry_eq_append {κ ν : Type} [DecidableEq κ] {l : List (κ × ν)} {k : κ}
    (v : ν) (hf : findEntry l k = none) : insertEntry l k v = l ++ [(k, v)] := by
  induction l with
  | nil => simp [insertEntry]
  | cons kv rest ih =>
    rw [findEntry] at hf
    by_cases h : kv.1 = k
    · rw [if_pos h] at hf
      exact Option.noConfusion hf
    · rw [if_neg h] at hf
      rw [insertEntry, if_neg h, ih hf]
      simp

theorem findEntry_append_of_none {κ ν : Type} [DecidableEq κ] {l1 : List (κ × ν)}
    (l2 : List (κ × ν)) {k : κ} (hf : findEntry l1 k = none) :
    findEntry (l1 ++ l2) k = findEntry l2 k := by
  induction l1 with
  | nil => simp
  | cons kv rest ih =>
    rw [findEntry] at hf
    by_cases h : kv.1 = k
    · rw [if_pos h] at hf
      exact Option.noConfusion hf
    · rw [if_neg h] at hf
      rw [List.cons_append, findEntry, if_neg h]
      exact ih hf

theorem add_order_orders_fresh {b : OrderBook} {o : Order}
    (hf : findEntry b.orders o.id = none) :
    ((b.add_order o).1).orders = b.orders ++ [(o.id, o)] := by
  have hnot : ¬ (findEntry b.orders o.id).isSome = true := by
    rw [hf]
    simp
  cases hs : o.side
  case Bid =>
    rw [add_order_eq_bid hs rfl]
    show insertEntry (if (findEntry b.orders o.id).isSome then
      (b.remove_order o.id).1 else b).orders o.id o = _
    rw [if_neg hnot]
    exact insertEntry_eq_append o hf
  case Ask =>
    rw [add_order_eq_ask hs rfl]
    show insertEntry (if (findEntry b.orders o.id).isSome then
      (b.remove_order o.id).1 else b).orders o.id o = _
    rw [if_neg hnot]
    exact insertEntry_eq_append o hf

theorem foldl_add_orders_index :
    ∀ (os : List Order) (b : OrderBook),
      (∀ o ∈ os, findEntry b.orders o.id = none) →
      (os.map Order.id).Nodup →
      (os.foldl (fun bk o => (bk.add_order o).1) b).orders =
        b.orders ++ os.map (fun o => (o.id, o))
  | [], b, _, _ => by simp
  | o :: rest, b, hfresh, hnd => by
    rw [List.foldl_cons]
    have hf : findEntry b.orders o.id = none := hfresh o (List.mem_cons_self _ _)
    have horders : ((b.add_order o).1).orders = b.orders ++ [(o.id, o)] :=
      add_order_orders_fresh hf
    simp only [List.map_cons, List.nodup_cons] at hnd
    have hfresh2 : ∀ o' ∈ rest, findEntry ((b.add_order o).1).orders o'.id = none := by
      intro o' ho'
      rw [horders]
      have h1 : findEntry b.orders o'.id = none :=
        hfresh o' (List.mem_cons_of_mem _ ho')
      rw [findEntry_append_of_none _ h1, findEntry]
      rw [if_neg]
      · rfl
      · intro hc
        apply hnd.1
        rw [show o.id = o'.id from hc]
        exact List.mem_map.2 ⟨o', ho', rfl⟩
    rw [foldl_add_orders_index rest ((b.add_order o).1) hfresh2 hnd.2, horders]
    simp

theorem init_orders_eq (d : SampleDraws) (now : Int) (sym : String) :
    ((OrderBook.new sym).initialize_with_sample_data d now).orders =
      ((List.range 30).map (fun i => (("bid_" ++ Nat.repr i : String),
        sampleBidOrder d now i))) ++
      ((List.range 30).map (fun i => (("ask_" ++ Nat.repr i : String),
        sampleAskOrder d now i))) := by
  rw [OrderBook.initialize_with_sample_data]
  have hb : (List.range 30).foldl
      (fun bk i => (bk.add_order (sampleBidOrder d now i)).1) (OrderBook.new sym) =
      ((List.range 30).map (sampleBidOrder d now)).foldl
        (fun bk o => (bk.add_order o).1) (OrderBook.new sym) := by
    rw [List.foldl_map]
  have ha : ∀ b1 : OrderBook, (List.range 30).foldl
      (fun bk i => (bk.add_order (sampleAskOrder d now i)).1) b1 =
      ((List.range 30).map (sampleAskOrder d now)).foldl
        (fun bk o => (bk.add_order o).1) b1 := by
    intro b1
    rw [List.foldl_map]
  rw [hb, ha]
  have h1 : (((List.range 30).map (sampleBidOrder d now)).foldl
      (fun bk o => (bk.add_order o).1) (OrderBook.new sym)).orders =
      (OrderBook.new sym).orders ++
        ((List.range 30).map (sampleBidOrder d now)).map (fun o => (o.id, o)) := by
    apply foldl_add_orders_index
    · intro o ho
      rfl
    · simp only [List.map_map]
      have : ((List.range 30).map (Order.id ∘ sampleBidOrder d now)) =
          (List.range 30).map (fun i => "bid_" ++ Nat.repr i) := by
        apply List.map_congr_left
        intro i _
        rfl
      rw [this]
      decide
  have h2 : (((List.range 30).map (sampleAskOrder d now)).foldl
      (fun bk o => (bk.add_order o).1)
      (((List.range 30).map (sampleBidOrder d now)).foldl
        (fun bk o => (bk.add_order o).1) (OrderBook.new sym))).orders =
      ((((List.range 30).map (sampleBidOrder d now)).foldl
        (fun bk o => (bk.add_order o).1) (OrderBook.new sym))).orders ++
        ((List.range 30).map (sampleAskOrder d now)).map (fun o => (o.id, o)) := by
    apply foldl_add_orders_index
    · intro o ho
      rw [h1]
      obtain ⟨j, hj, rfl⟩ := List.mem_map.1 ho
      show findEntry ([] ++ _) _ = none
      rw [List.nil_append]
      rw [findEntry_eq_none_iff]
      intro hmem
      simp only [keysOf, List.map_map] at hmem
      obtain ⟨i, hi, hc⟩ := List.mem_map.1 hmem
      have hstr : ∀ j2 ∈ List.range 30, ∀ i2 ∈ List.range 30,
          ("ask_" ++ Nat.repr j2) ≠ ("bid_" ++ Nat.repr i2) := by decide
      exact hstr j hj i hi (hc.symm)
    · simp only [List.map_map]
      have : ((List.range 30).map (Order.id ∘ sampleAskOrder d now)) =
          (List.range 30).map (fun i => "ask_" ++ Nat.repr i) := by
        apply List.map_congr_left
        intro i _
        rfl
      rw [this]
      decide
  rw [h2, h1]
  simp only [List.map_map, List.nil_append]
  congr 1

/-- C8, counterexample: with any concrete draws, the first synthetic ask
(`ask_0`) rests at price `100.0 + 0*0.01 = 100.0`, exactly the reference
price — so "all ask orders rest strictly above the reference price" is false
on the seeded book. -/
theorem C8_counterexample_ask_at_reference :
    ¬ (∀ e ∈ ((OrderBook.new "S").initialize_with_sample_data cexDraws 0).orders,
        Order.side e.2 = Side.Ask → Order.price e.2 > 100) := by
  intro h
  have h1 : findEntry
      ((OrderBook.new "S").initialize_with_sample_data cexDraws 0).orders
      ("ask_" ++ Nat.repr 0) = some (sampleAskOrder cexDraws 0 0) := by
    rw [init_orders_eq]
    rfl
  have h2 := h _ (findEntry_mem h1) rfl
  rw [show Order.price (sampleAskOrder cexDraws 0 0) = sampleAskPrice 0 from rfl,
    sampleAskPrice] at h2
  norm_num at h2

/-- C8 (amended): seeding a fresh book places exactly 30 bid orders, all at
prices strictly below the reference price 100.0, and exactly 30 ask orders,
all at prices at or above the reference price with the first ask exactly at
it; each side uses one order per price step (all prices within a side are
distinct); every order's resting timestamp is backdated by at least 0 and
less than 60 seconds, and every quantity lies in [1000, 10000], matching the
sampled ranges. -/
theorem C8_amended_sample_book (d : SampleDraws) (now : Int) (sym : String)
    (hbq : ∀ i, 1000 ≤ d.bidQty i ∧ d.bidQty i ≤ 10000)
    (haq : ∀ i, 1000 ≤ d.askQty i ∧ d.askQty i ≤ 10000)
    (hbb : ∀ i, 0 ≤ d.bidBack i ∧ d.bidBack i < 60000)
    (hab : ∀ i, 0 ≤ d.askBack i ∧ d.askBack i < 60000) :
    ((((OrderBook.new sym).initialize_with_sample_data d now).orders.filter
        (fun e => e.2.side == Side.Bid)).length = 30) ∧
    ((((OrderBook.new sym).initialize_with_sample_data d now).orders.filter
        (fun e => e.2.side == Side.Ask)).length = 30) ∧
    (∀ e ∈ ((OrderBook.new sym).initialize_with_sample_data d now).orders,
        Order.side e.2 = Side.Bid → Order.price e.2 < 100) ∧
    (∀ e ∈ ((OrderBook.new sym).initialize_with_sample_data d now).orders,
        Order.side e.2 = Side.Ask → Order.price e.2 ≥ 100) ∧
    (∃ e ∈ ((OrderBook.new sym).initialize_with_sample_data d now).orders,
        Order.side e.2 = Side.Ask ∧ Order.price e.2 = 100) ∧
    (((((OrderBook.new sym).initialize_with_sample_data d now).orders.filter
        (fun e => e.2.side == Side.Bid)).map (fun e => Order.price e.2)).Nodup) ∧
    (((((OrderBook.new sym).initialize_with_sample_data d now).orders.filter
        (fun e => e.2.side == Side.Ask)).map (fun e => Order.price e.2)).Nodup) ∧
    (∀ e ∈ ((OrderBook.new sym).initialize_with_sample_data d now).orders,
        now - 60000 < Order.timestamp e.2 ∧ Order.timestamp e.2 ≤ now) ∧
    (∀ e ∈ ((OrderBook.new sym).initialize_with_sample_data d now).orders,
        1000 ≤ Order.quantity e.2 ∧ Order.quantity e.2 ≤ 10000) := by
  have hBside : ∀ i : Nat, (sampleBidOrder d now i).side = Side.Bid := fun _ => rfl
  have hAside : ∀ i : Nat, (sampleAskOrder d now i).side = Side.Ask := fun _ => rfl
  have hfB : (((List.range 30).map (fun i => (("bid_" ++ Nat.repr i : String),
      sampleBidOrder d now i))).filter (fun e => e.2.side == Side.Bid)) =
      ((List.range 30).map (fun i => (("bid_" ++ Nat.repr i : String),
        sampleBidOrder d now i))) := by
    apply List.filter_eq_self.2
    intro e he
    obtain ⟨i, _, rfl⟩ := List.mem_map.1 he
    rfl
  have hfB2 : (((List.range 30).map (fun i => (("ask_" ++ Nat.repr i : String),
      sampleAskOrder d now i))).filter (fun e => e.2.side == Side.Bid)) = [] := by
    apply List.filter_eq_nil.2
    intro e he
    obtain ⟨i, _, rfl⟩ := List.mem_map.1 he
    simp [sampleAskOrder]
  have hfA : (((List.range 30).map (fun i => (("ask_" ++ Nat.repr i : String),
      sampleAskOrder d now i))).filter (fun e => e.2.side == Side.Ask)) =
      ((List.range 30).map (fun i => (("ask_" ++ Nat.repr i : String),
        sampleAskOrder d now i))) := by
    apply List.filter_eq_self.2
    intro e he
    obtain ⟨i, _, rfl⟩ := List.mem_map.1 he
    rfl
  have hfA2 : (((List.range 30).map (fun i => (("bid_" ++ Nat.repr i : String),
      sampleBidOrder d now i))).filter (fun e => e.2.side == Side.Ask)) = [] := by
    apply List.filter_eq_nil.2
    intro e he
    obtain ⟨i, _, rfl⟩ := List.mem_map.1 he
    simp [sampleBidOrder]
  have hmem : ∀ e ∈ ((OrderBook.new sym).initialize_with_sample_data d now).orders,
      (∃ i ∈ List.range 30, e = (("bid_" ++ Nat.repr i : String), sampleBidOrder d now i)) ∨
      (∃ i ∈ List.range 30, e = (("ask_" ++ Nat.repr i : String), sampleAskOrder d now i)) := by
    intro e he
    rw [init_orders_eq] at he
    rcases List.mem_append.1 he with h | h
    · obtain ⟨i, hi, rfl⟩ := List.mem_map.1 h
      exact Or.inl ⟨i, hi, rfl⟩
    · obtain ⟨i, hi, rfl⟩ := List.mem_map.1 h
      exact Or.inr ⟨i, hi, rfl⟩
  have hbidPrice : ∀ i ∈ List.range 30, sampleBidPrice i < 100 := by
    intro i _
    rw [sampleBidPrice, div_lt_iff (by norm_num : (0:ℚ) < 100)]
    have : (0:ℚ) ≤ (i : ℚ) := Nat.cast_nonneg i
    linarith
  have haskPrice : ∀ i : Nat, sampleAskPrice i ≥ 100 := by
    intro i
    rw [sampleAskPrice, ge_iff_le, le_div_iff (by norm_num : (0:ℚ) < 100)]
    have : (0:ℚ) ≤ (i : ℚ) := Nat.cast_nonneg i
    linarith
  refine ⟨?_, ?_, ?_, ?_, ?_, ?_, ?_, ?_, ?_⟩
  · rw [init_orders_eq, List.filter_append, hfB, hfB2]
    simp
  · rw [init_orders_eq, List.filter_append, hfA2, hfA]
    simp
  · intro e he hside
    rcases hmem e he with ⟨i, hi, rfl⟩ | ⟨i, hi, rfl⟩
    · exact hbidPrice i hi
    · rw [hAside i] at hside
      exact Side.noConfusion hside
  · intro e he hside
    rcases hmem e he with ⟨i, hi, rfl⟩ | ⟨i, hi, rfl⟩
    · rw [hBside i] at hside
      exact Side.noConfusion hside
    · exact haskPrice i
  · refine ⟨(("ask_" ++ Nat.repr 0 : String), sampleAskOrder d now 0), ?_, rfl, ?_⟩
    · rw [init_orders_eq]
      exact List.mem_append_right _ (List.mem_map.2 ⟨0, by simp, rfl⟩)
    · rw [show Order.price (sampleAskOrder d now 0) = sampleAskPrice 0 from rfl,
        sampleAskPrice]
      norm_num
  · rw [init_orders_eq, List.filter_append, hfB, hfB2, List.append_nil, List.map_map]
    have heq : ((fun e : String × Order => Order.price e.2) ∘
        (fun i => (("bid_" ++ Nat.repr i : String), sampleBidOrder d now i))) =
        fun i => sampleBidPrice i := rfl
    rw [heq]
    apply (List.nodup_range 30).map_on
    intro i hi j hj h
    rw [sampleBidPrice, sampleBidPrice,
      div_eq_div_iff (by norm_num : (100:ℚ) ≠ 0) (by norm_num : (100:ℚ) ≠ 0)] at h
    have : (i : ℚ) = (j : ℚ) := by linarith
    exact_mod_cast this
  · rw [init_orders_eq, List.filter_append, hfA2, hfA, List.nil_append, List.map_map]
    have heq : ((fun e : String × Order => Order.price e.2) ∘
        (fun i => (("ask_" ++ Nat.repr i : String), sampleAskOrder d now i))) =
        fun i => sampleAskPrice i := rfl
    rw [heq]
    apply (List.nodup_range 30).map_on
    intro i hi j hj h
    rw [sampleAskPrice, sampleAskPrice,
      div_eq_div_iff (by norm_num : (100:ℚ) ≠ 0) (by norm_num : (100:ℚ) ≠ 0)] at h
    have : (i : ℚ) = (j : ℚ) := by linarith
    exact_mod_cast this
  · intro e he
    rcases hmem e he with ⟨i, _, rfl⟩ | ⟨i, _, rfl⟩
    · have h1 := hbb i
      constructor <;> simp only [sampleBidOrder] <;> omega
    · have h1 := hab i
      constructor <;> simp only [sampleAskOrder] <;> omega
  · intro e he
    rcases hmem e he with ⟨i, _, rfl⟩ | ⟨i, _, rfl⟩
    · exact hbq i
    · exact haq i

/-- Witness for C8 (amended) at concrete draws (constant quantity 1000,
backdate 0) and time 0. -/
theorem C8_witness :
    ((((OrderBook.new "S").initialize_with_sample_data cexDraws 0).orders.filter
        (fun e => e.2.side == Side.Bid)).length = 30) ∧
    ((((OrderBook.new "S").initialize_with_sample_data cexDraws 0).orders.filter
        (fun e => e.2.side == Side.Ask)).length = 30) ∧
    (∀ e ∈ ((OrderBook.new "S").initialize_with_sample_data cexDraws 0).orders,
        Order.side e.2 = Side.Bid → Order.price e.2 < 100) ∧
    (∀ e ∈ ((OrderBook.new "S").initialize_with_sample_data cexDraws 0).orders,
        Order.side e.2 = Side.Ask → Order.price e.2 ≥ 100) ∧
    (∃ e ∈ ((OrderBook.new "S").initialize_with_sample_data cexDraws 0).orders,
        Order.side e.2 = Side.Ask ∧ Order.price e.2 = 100) ∧
    (((((OrderBook.new "S").initialize_with_sample_data cexDraws 0).orders.filter
        (fun e => e.2.side == Side.Bid)).map (fun e => Order.price e.2)).Nodup) ∧
    (((((OrderBook.new "S").initialize_with_sample_data cexDraws 0).orders.filter
        (fun e => e.2.side == Side.Ask)).map (fun e => Order.price e.2)).Nodup) ∧
    (∀ e ∈ ((OrderBook.new "S").initialize_with_sample_data cexDraws 0).orders,
        (0 : Int) - 60000 < Order.timestamp e.2 ∧ Order.timestamp e.2 ≤ 0) ∧
    (∀ e ∈ ((OrderBook.new "S").initialize_with_sample_data cexDraws 0).orders,
        1000 ≤ Order.quantity e.2 ∧ Order.quantity e.2 ≤ 10000) :=
  C8_amended_sample_book cexDraws 0 "S"
    (fun _ => ⟨le_refl 1000, by norm_num [cexDraws]⟩)
    (fun _ => ⟨le_refl 1000, by norm_num [cexDraws]⟩)
    (fun _ => ⟨le_refl 0, by norm_num [cexDraws]⟩)
    (fun _ => ⟨le_refl 0, by norm_num [cexDraws]⟩)
